import Mathlib

/-!
Verification of the RFC 6570 URI-template codec (compiler, expander,
extractor) found in `src/src/UriTemplate.js` and `src/unnamed/part_000`.

JavaScript strings are modelled as lists of UTF-16 code units (`JStr`).
All functions are shallow embeddings of the JavaScript source; JS built-ins
(`indexOf`, `split`, `substring`, `encodeURIComponent`,
`decodeURIComponent`, `Number.prototype.toString(16)`) are modelled from
their ECMA-262 specifications.  Thrown JS exceptions are modelled with
`Except Unit`; the explicit JS failure value `false` is modelled with
`Option`.
-/

set_option maxRecDepth 10000

/-- A JavaScript string: a list of UTF-16 code units. -/
abbrev JStr := List Nat

/-- Convert a Lean string literal (BMP characters only) into a `JStr`. -/
def jstr (s : String) : JStr := s.data.map Char.toNat

/-- Test whether `pat` occurs in `s` starting at position `p`
(the first `pat.length` units of `s.drop p` equal `pat`). -/
def matchesAt (s pat : JStr) (p : Nat) : Bool :=
  decide (pat <+: s.drop p)

/-- Scan positions `p, p+1, ...` (with `fuel` positions remaining) for the
first place where `pat` matches in `s`. -/
def firstOccGo (s pat : JStr) : Nat → Nat → Option Nat
  | _, 0 => none
  | p, fuel + 1 => if matchesAt s pat p then some p else firstOccGo s pat (p + 1) fuel

/-- Model of `String.prototype.indexOf(pat, from)`: index of the first
occurrence of `pat` at or after `min from s.length`, if any
(ECMA-262 String.prototype.indexOf; `none` models `-1`). -/
def jsIndexOf (s pat : JStr) (first : Nat) : Option Nat :=
  let p0 := min first s.length
  firstOccGo s pat p0 (s.length + 1 - p0)

/-- Model of `String.prototype.substring(a, b)`: the units between the two
clamped endpoints, swapped if out of order (ECMA-262). -/
def jsSubstring (s : JStr) (a b : Nat) : JStr :=
  let a' := min a s.length
  let b' := min b s.length
  (s.take (max a' b')).drop (min a' b')

/-- Model of `String.prototype.split(sep)` for a non-empty separator:
repeatedly cut at the first occurrence of `sep` (structural fuel version).
For the empty separator JS splits into single code units. -/
def jsSplitGo (sep : JStr) : JStr → Nat → List JStr
  | s, 0 => [s]
  | s, fuel + 1 =>
    match jsIndexOf s sep 0 with
    | none => [s]
    | some p => s.take p :: jsSplitGo sep (s.drop (p + sep.length)) fuel

/-- Model of `String.prototype.split(sep)` (ECMA-262, string separator). -/
def jsSplit (sep s : JStr) : List JStr :=
  if sep = [] then s.map (fun c => [c])
  else jsSplitGo sep s (s.length + 1)

/-- Code-unit codes used throughout; named for readability. -/
def percentCU : Nat := 0x25

def openBraceCU : Nat := 0x7B

def closeBraceCU : Nat := 0x7D

def commaCU : Nat := 0x2C

def equalsCU : Nat := 0x3D

/-- ASCII decimal digit. -/
def isDigitCU (c : Nat) : Bool := 0x30 ≤ c && c ≤ 0x39

/-- ASCII uppercase letter. -/
def isUpperCU (c : Nat) : Bool := 0x41 ≤ c && c ≤ 0x5A

/-- ASCII lowercase letter. -/
def isLowerCU (c : Nat) : Bool := 0x61 ≤ c && c ≤ 0x7A

/-- The four RFC 3986 unreserved punctuation characters `-._~`
(the source's `unreserved` string, membership via `indexOf`). -/
def isUnreservedPunct (c : Nat) : Bool :=
  c = 0x2D || c = 0x2E || c = 0x5F || c = 0x7E

/-- Hexadecimal digit character for a value below 16, lowercase letters,
as produced by `Number.prototype.toString(16)`. -/
def hexCharLower (n : Nat) : Nat :=
  if n < 10 then 0x30 + n else 0x61 + (n - 10)

/-- Digits of `n` in base 16 (lowercase letters), most significant first,
computed with structural fuel; `n = 0` yields `"0"`.  Models
`Number.prototype.toString(16)` for a non-negative integer. -/
def hexDigitsGo : Nat → Nat → JStr
  | _, 0 => []
  | n, fuel + 1 =>
    if n < 16 then [hexCharLower n]
    else hexDigitsGo (n / 16) fuel ++ [hexCharLower (n % 16)]

/-- Model of `charCode.toString(16)` for a natural number. -/
def jsToStringHex (n : Nat) : JStr := hexDigitsGo n (n + 1)

/-- ASCII-only model of `String.prototype.toUpperCase` (the source applies
it only to hexadecimal digit strings, which are ASCII). -/
def jsToUpperCase (s : JStr) : JStr :=
  s.map (fun c => if isLowerCU c then c - 0x20 else c)

/-- Embedding of `percentTransform(ch)` from the source: pass ASCII digits,
upper- and lowercase letters and `-._~` through; anything else becomes
`'%' + charCode.toString(16).toUpperCase()`. -/
def percentTransform (c : Nat) : JStr :=
  if 0x30 ≤ c ∧ c ≤ 0x39 then [c]
  else if 0x41 ≤ c ∧ c ≤ 0x5A then [c]
  else if 0x61 ≤ c ∧ c ≤ 0x7A then [c]
  else if isUnreservedPunct c then [c]
  else percentCU :: jsToUpperCase (jsToStringHex c)

/-- Embedding of `applyStringTransform(value, mapper)`:
`value.split("").map(mapper).join('')`. -/
def applyStringTransform (s : JStr) (mapper : Nat → JStr) : JStr :=
  (s.map mapper).flatten

example : percentTransform 0x41 = jstr ("A") := by decide
example : percentTransform 0x20 = jstr ("%20") := by decide
example : percentTransform 0x0A = jstr ("%A") := by decide
example : percentTransform 0x20AC = jstr ("%20AC") := by decide
example : jsIndexOf (jstr ("abx")) (jstr ("x")) 0 = some 2 := by decide
example : jsIndexOf (jstr ("abx")) (jstr ("x")) 3 = none := by decide
example : jsIndexOf (jstr ("ab")) [] 5 = some 2 := by decide
example : jsSplit (jstr (",")) (jstr ("a,b,")) = [jstr ("a"), jstr ("b"), []] := by decide
example : jsSubstring (jstr ("abcdef")) 2 4 = jstr ("cd") := by decide

/-- The JavaScript runtime values that can appear as variable values:
absent/`undefined`, `null`, booleans, integers, strings, arrays and plain
objects (a tagged union, as suggested by the design notes). -/
inductive JSValue where
  | undef
  | null
  | bool (b : Bool)
  | num (n : Int)
  | str (s : JStr)
  | list (elems : List JSValue)
  | obj (entries : List (JStr × JSValue))

/-- Decimal digits of a natural number (structural fuel). -/
def decDigitsGo : Nat → Nat → JStr
  | _, 0 => []
  | n, fuel + 1 =>
    if n < 10 then [0x30 + n]
    else decDigitsGo (n / 10) fuel ++ [0x30 + n % 10]

/-- Model of number-to-string conversion for integers (ECMA-262 ToString on
an integral Number). -/
def jsIntToString (n : Int) : JStr :=
  if n < 0 then 0x2D :: decDigitsGo n.natAbs (n.natAbs + 1)
  else decDigitsGo n.natAbs (n.natAbs + 1)

mutual

/-- Model of the JS `String()` coercion (ECMA-262 ToString).  The source
reaches it through `value.toString()` (guarded so the receiver is never
`null`/`undefined`, where the two differ) and through the ToString steps
of `encodeURI`/`encodeURIComponent`. -/
def jsStringV : JSValue → JStr
  | .undef => jstr ("undefined")
  | .null => jstr ("null")
  | .bool true => jstr ("true")
  | .bool false => jstr ("false")
  | .num n => jsIntToString n
  | .str s => s
  | .list es => jsStringList es
  | .obj _ => jstr ("[object Object]")

/-- `Array.prototype.toString`: elements joined by commas; `null` and
`undefined` elements render as the empty string. -/
def jsStringList : List JSValue → JStr
  | [] => []
  | [e] => (match e with | .undef => [] | .null => [] | e' => jsStringV e')
  | e :: rest =>
    (match e with | .undef => [] | .null => [] | e' => jsStringV e') ++
      commaCU :: jsStringList rest

end

/-- Embedding of `isUndefined(value)` from the source
(RFC 6570 section 2.3): `null`, `undefined`, or an empty array. -/
def isUndefined : JSValue → Bool
  | .null => true
  | .undef => true
  | .list [] => true
  | _ => false

/-- Embedding of `isDefined(value)` from the source. -/
def isDefined (v : JSValue) : Bool := !isUndefined v

/-- Embedding of `percentEncode(value)` from the source: empty output for
undefined values, otherwise `applyStringTransform` with
`percentTransform` over the value's string form. -/
def percentEncode (v : JSValue) : JStr :=
  if isUndefined v then []
  else applyStringTransform (jsStringV v) percentTransform

/-- Uppercase hexadecimal digit character for a value below 16. -/
def hexCharUpper (n : Nat) : Nat :=
  if n < 10 then 0x30 + n else 0x41 + (n - 10)

/-- Two-digit uppercase hexadecimal form of a byte, as emitted by the
`encodeURI`/`encodeURIComponent` built-ins. -/
def byteToHex2 (b : Nat) : JStr := [hexCharUpper (b / 16), hexCharUpper (b % 16)]

/-- A percent-escape `%XX` for one byte. -/
def percentEscapeByte (b : Nat) : JStr := percentCU :: byteToHex2 b

/-- The UTF-8 bytes of a Unicode code point. -/
def utf8Bytes (cp : Nat) : List Nat :=
  if cp < 0x80 then [cp]
  else if cp < 0x800 then [0xC0 + cp / 0x40, 0x80 + cp % 0x40]
  else if cp < 0x10000 then
    [0xE0 + cp / 0x1000, 0x80 + cp / 0x40 % 0x40, 0x80 + cp % 0x40]
  else
    [0xF0 + cp / 0x40000, 0x80 + cp / 0x1000 % 0x40, 0x80 + cp / 0x40 % 0x40,
      0x80 + cp % 0x40]

/-- The characters `encodeURIComponent` leaves unescaped
(ECMA-262 `uriUnescaped`): ASCII alphanumerics and `- _ . ! ~ * ' ( )`. -/
def isComponentUnescaped (c : Nat) : Bool :=
  isDigitCU c || isUpperCU c || isLowerCU c ||
    c = 0x2D || c = 0x5F || c = 0x2E || c = 0x21 || c = 0x7E || c = 0x2A ||
    c = 0x27 || c = 0x28 || c = 0x29

/-- The characters `encodeURI` leaves unescaped: `uriUnescaped` plus the
`uriReserved` set `; / ? : @ & = + $ ,` and `#`. -/
def isUriUnescaped (c : Nat) : Bool :=
  isComponentUnescaped c ||
    c = 0x3B || c = 0x2F || c = 0x3F || c = 0x3A || c = 0x40 || c = 0x26 ||
    c = 0x3D || c = 0x2B || c = 0x24 || c = 0x2C || c = 0x23

/-- One step of ECMA-262 `Encode`: the output units contributed by the
code unit `c` (an unescaped copy, or the percent-escaped UTF-8 bytes of
the code point, pairing surrogates) and the remaining input; `none`
models the `URIError` thrown on a lone surrogate. -/
def encodeOne (unescaped : Nat → Bool) (c : Nat) (rest : JStr) :
    Option (JStr × JStr) :=
  if unescaped c then some ([c], rest)
  else if c < 0xD800 ∨ 0xDFFF < c then
    some (((utf8Bytes c).map percentEscapeByte).flatten, rest)
  else if c ≤ 0xDBFF then
    match rest with
    | c2 :: rest2 =>
      if 0xDC00 ≤ c2 ∧ c2 ≤ 0xDFFF then
        some (((utf8Bytes (0x10000 + (c - 0xD800) * 0x400 + (c2 - 0xDC00))).map
          percentEscapeByte).flatten, rest2)
      else none
    | [] => none
  else none

/-- The `Encode` walk over the code units, with structural fuel (each
step consumes at least one unit, so any fuel above the length is
enough). -/
def encodeGo (unescaped : Nat → Bool) : Nat → JStr → Except Unit JStr
  | _, [] => .ok []
  | 0, _ :: _ => .error ()
  | fuel + 1, c :: rest =>
    match encodeOne unescaped c rest with
    | none => .error ()
    | some (out, rest') =>
      match encodeGo unescaped fuel rest' with
      | .ok t => .ok (out ++ t)
      | .error e => .error e

/-- ECMA-262 `Encode`: walk the UTF-16 code units, copy unescaped
characters, percent-escape the UTF-8 bytes of everything else, pairing
surrogates; a lone surrogate throws `URIError` (modelled by `.error`). -/
def encodeURIStr (unescaped : Nat → Bool) (s : JStr) : Except Unit JStr :=
  encodeGo unescaped (s.length + 1) s

/-- Model of the `encodeURIComponent` built-in (ToString, then Encode with
the `uriUnescaped` set). -/
def encodeURIComponent (v : JSValue) : Except Unit JStr :=
  encodeURIStr isComponentUnescaped (jsStringV v)

/-- Model of the `encodeURI` built-in (ToString, then Encode with the
unreserved-plus-reserved set). -/
def encodeURI (v : JSValue) : Except Unit JStr :=
  encodeURIStr isUriUnescaped (jsStringV v)

instance {ε α : Type _} [DecidableEq ε] [DecidableEq α] : DecidableEq (Except ε α) := fun x y =>
  match x, y with
  | .error e, .error e' =>
    if h : e = e' then .isTrue (congrArg Except.error h)
    else .isFalse (fun hc => h (Except.error.inj hc))
  | .error _, .ok _ => .isFalse nofun
  | .ok _, .error _ => .isFalse nofun
  | .ok a, .ok a' =>
    if h : a = a' then .isTrue (congrArg Except.ok h)
    else .isFalse (fun hc => h (Except.ok.inj hc))

/-- Numeric value of a hexadecimal digit character (either case). -/
def hexVal (c : Nat) : Option Nat :=
  if 0x30 ≤ c ∧ c ≤ 0x39 then some (c - 0x30)
  else if 0x41 ≤ c ∧ c ≤ 0x46 then some (c - 0x41 + 10)
  else if 0x61 ≤ c ∧ c ≤ 0x66 then some (c - 0x61 + 10)
  else none

/-- Byte value of a `%XX` escape given its three characters. -/
def escByteVal (p x y : Nat) : Option Nat :=
  if p = percentCU then
    match hexVal x, hexVal y with
    | some a, some b => some (16 * a + b)
    | _, _ => none
  else none

/-- A UTF-8 continuation byte. -/
def contByte (b : Nat) : Bool := 0x80 ≤ b && b ≤ 0xBF

/-- Constraint on the first continuation byte of a three-byte UTF-8
sequence (excludes overlong forms and surrogates). -/
def utf8Valid3 (lead b1 : Nat) : Bool :=
  (lead ≠ 0xE0 || 0xA0 ≤ b1) && (lead ≠ 0xED || b1 ≤ 0x9F)

/-- Constraint on the first continuation byte of a four-byte UTF-8
sequence (excludes overlong forms and values beyond U+10FFFF). -/
def utf8Valid4 (lead b1 : Nat) : Bool :=
  (lead ≠ 0xF0 || 0x90 ≤ b1) && (lead ≠ 0xF4 || b1 ≤ 0x8F)

/-- Read a leading `%XX` escape: its byte value and the remaining
input. -/
def readEsc : JStr → Option (Nat × JStr)
  | h1 :: h2 :: rest =>
    (match hexVal h1, hexVal h2 with
     | some a, some b => some (16 * a + b, rest)
     | _, _ => none)
  | _ => none

/-- Read a `%XX` continuation byte (which must be `10xxxxxx`). -/
def readEscCont (s : JStr) : Option (Nat × JStr) :=
  match s with
  | p :: x :: y :: rest =>
    (match escByteVal p x y with
     | some b => if contByte b then some (b, rest) else none
     | none => none)
  | _ => none

/-- Decode the escape sequence whose first byte `b` (two hex digits
already consumed) starts at `rest2`: the produced UTF-16 code units and
the remaining input; `none` models a `URIError` for any octet sequence
that is not strict UTF-8 (ECMA-262 Decode).  Astral code points emit a
surrogate pair. -/
def decodeOne (b : Nat) (rest2 : JStr) : Option (List Nat × JStr) :=
  if b < 0x80 then some ([b], rest2)
  else if 0xC2 ≤ b ∧ b ≤ 0xDF then
    match readEscCont rest2 with
    | some (b1, r) => some ([(b - 0xC0) * 0x40 + (b1 - 0x80)], r)
    | none => none
  else if 0xE0 ≤ b ∧ b ≤ 0xEF then
    match readEscCont rest2 with
    | some (b1, r1) =>
      (match readEscCont r1 with
       | some (b2, r2) =>
         if utf8Valid3 b b1 then
           some ([(b - 0xE0) * 0x1000 + (b1 - 0x80) * 0x40 + (b2 - 0x80)], r2)
         else none
       | none => none)
    | none => none
  else if 0xF0 ≤ b ∧ b ≤ 0xF4 then
    match readEscCont rest2 with
    | some (b1, r1) =>
      (match readEscCont r1 with
       | some (b2, r2) =>
         (match readEscCont r2 with
          | some (b3, r3) =>
            if utf8Valid4 b b1 then
              let cp := (b - 0xF0) * 0x40000 + (b1 - 0x80) * 0x1000 +
                (b2 - 0x80) * 0x40 + (b3 - 0x80)
              some ([0xD800 + (cp - 0x10000) / 0x400,
                0xDC00 + (cp - 0x10000) % 0x400], r3)
            else none
          | none => none)
       | none => none)
    | none => none
  else none

/-- The decode scan, with structural fuel (one unit per input chunk; any
fuel above the input length is enough, every chunk consumes at least one
character).  Copies ordinary characters and decodes `%` escapes via
`decodeOne`; every malformed case is a thrown `URIError` (`.error`). -/
def decodeGo : Nat → JStr → Except Unit JStr
  | _, [] => .ok []
  | 0, _ :: _ => .error ()
  | fuel + 1, c :: rest =>
    if c = percentCU then
      match readEsc rest with
      | none => .error ()
      | some (b, rest2) =>
        match decodeOne b rest2 with
        | none => .error ()
        | some (units, rest') =>
          match decodeGo fuel rest' with
          | .ok d => .ok (units ++ d)
          | .error e => .error e
    else
      match decodeGo fuel rest with
      | .ok d => .ok (c :: d)
      | .error e => .error e

/-- Model of the `decodeURIComponent` built-in (ECMA-262 Decode with an
empty reserved set). -/
def decodeURIComponent (s : JStr) : Except Unit JStr := decodeGo (s.length + 1) s

example : decodeURIComponent (jstr ("a%20b")) = .ok (jstr ("a b")) := by decide
example : decodeURIComponent (jstr ("%zz")) = .error () := by decide
example : decodeURIComponent (jstr ("%A")) = .error () := by decide
example : decodeURIComponent (jstr ("%E9")) = .error () := by decide
example : decodeURIComponent (jstr ("%C3%A9")) = .ok ([0xE9]) := by decide
example : encodeURIComponent (.str (jstr ("a/b!"))) = .ok (jstr ("a%2Fb!")) := by decide
example : encodeURIComponent (.str ([0xE9])) = .ok (jstr ("%C3%A9")) := by decide
example : percentEncode (.str ([0xE9])) = jstr ("%E9") := by decide
example : encodeURI (.str (jstr ("a/b c"))) = .ok (jstr ("a/b%20c")) := by decide
example : jsStringV (.num (-42)) = jstr ("-42") := by decide
example : jsStringV (.list [.num 1, .null, .str (jstr ("x"))]) = jstr ("1,,x") := by decide

/-- The eight recognized operator codes (empty operator written `plain`). -/
inductive Op where
  | plain
  | plus
  | hash
  | dot
  | slash
  | semi
  | quest
  | amp

deriving instance DecidableEq for Op

/-- The three encoding functions stored in the source's operator table. -/
inductive EncMode where
  | strict
  | uriFull
  | uriComp

deriving instance DecidableEq for EncMode

/-- Apply an operator's encoding function: `percentEncode`, `encodeURI` or
`encodeURIComponent`. -/
def encodeApply : EncMode → JSValue → Except Unit JStr
  | .strict, v => .ok (percentEncode v)
  | .uriFull, v => encodeURI v
  | .uriComp, v => encodeURIComponent v

/-- One row of the source's `operatorOptions` table (`prefix` renamed
`pre` and `seperator` renamed `sep`). -/
structure OperatorProfile where
  pre : JStr
  sep : JStr
  assignment : Bool
  assignEmpty : Bool
  encode : EncMode

/-- Embedding of the `operatorOptions` table from the source. -/
def operatorOptions : Op → OperatorProfile
  | .plain => ⟨[], [commaCU], false, false, .strict⟩
  | .plus => ⟨[], [commaCU], false, false, .uriFull⟩
  | .hash => ⟨[0x23], [commaCU], false, false, .uriFull⟩
  | .dot => ⟨[0x2E], [0x2E], false, false, .strict⟩
  | .slash => ⟨[0x2F], [0x2F], false, false, .uriComp⟩
  | .semi => ⟨[0x3B], [0x3B], true, false, .uriComp⟩
  | .quest => ⟨[0x3F], [0x26], true, true, .uriComp⟩
  | .amp => ⟨[0x26], [0x26], true, true, .uriComp⟩

/-- A parsed variable token: `name(:maxLength)?(*)?`. -/
structure Var where
  name : JStr
  maxLength : Option Nat
  composite : Bool

deriving instance DecidableEq for Var

/-- One `{...}` expression: operator plus ordered variable list (the
source's `variables` field, renamed `vars`). -/
structure Piece where
  operator : Op
  vars : List Var

deriving instance DecidableEq for Piece

/-- First character of a variable name in `reVariable`:
`[\$_a-z]` with the `i` flag. -/
def isNameStartCU (c : Nat) : Bool :=
  c = 0x24 || c = 0x5F || isLowerCU c || isUpperCU c

/-- Continuation character of a variable name in `reVariable`:
`[\$_a-z0-9]` with the `i` flag. -/
def isNameCU (c : Nat) : Bool := isNameStartCU c || isDigitCU c

/-- Model of `parseInt(digits, 10)` for a non-empty ASCII digit string. -/
def digitsToNat (ds : JStr) : Nat := ds.foldl (fun acc d => 10 * acc + (d - 0x30)) 0

/-- Model of `reVariable.exec`: match a raw variable token against
`^([\$_a-z][\$_a-z0-9]*)((?:\:[1-9][0-9]?[0-9]?[0-9]?)?)(\*?)$/i` and build
the `{name, maxLength, composite}` record; `none` models a failed match. -/
def parseVarToken (s : JStr) : Option Var :=
  match s with
  | [] => none
  | c :: rest =>
    if isNameStartCU c then
      let name := c :: rest.takeWhile isNameCU
      match rest.dropWhile isNameCU with
      | [] => some ⟨name, none, false⟩
      | [star] => if star = 0x2A then some ⟨name, none, true⟩ else none
      | colon :: d :: ds =>
        if colon = 0x3A ∧ 0x31 ≤ d ∧ d ≤ 0x39 then
          let digits := d :: ds.takeWhile isDigitCU
          if digits.length ≤ 4 then
            match ds.dropWhile isDigitCU with
            | [] => some ⟨name, some (digitsToNat digits), false⟩
            | [star] =>
              if star = 0x2A then some ⟨name, some (digitsToNat digits), true⟩ else none
            | _ => none
          else none
        else none
    else none

/-- Embedding of `variableMapper(variable)`: a token that fails
`reVariable` makes the source dereference `match[1]` on `null`, a thrown
`TypeError`, modelled by `.error`. -/
def variableMapper (s : JStr) : Except Unit Var :=
  match parseVarToken s with
  | some v => .ok v
  | none => .error ()

/-- Embedding of `checkReserved(operator)` combined with the tagging of
the operator character: the reserved characters `= , ! @ |` throw; the
remaining operator-class characters map to their `Op` tag.  (The final
catch-all is unreachable: the scanner only produces operator-class
characters.) -/
def checkReservedOp : Option Nat → Except Unit Op
  | none => .ok .plain
  | some c =>
    if c = 0x3D ∨ c = 0x2C ∨ c = 0x21 ∨ c = 0x40 ∨ c = 0x7C then .error ()
    else if c = 0x2B then .ok .plus
    else if c = 0x23 then .ok .hash
    else if c = 0x2E then .ok .dot
    else if c = 0x2F then .ok .slash
    else if c = 0x3B then .ok .semi
    else if c = 0x3F then .ok .quest
    else if c = 0x26 then .ok .amp
    else .ok .plain

/-- Character class of the operator group in the template regex
`[\+#\.\/;\?&=\,!@\|]`. -/
def isOpCU (c : Nat) : Bool :=
  c = 0x2B || c = 0x23 || c = 0x2E || c = 0x2F || c = 0x3B || c = 0x3F ||
    c = 0x26 || c = 0x3D || c = 0x2C || c = 0x21 || c = 0x40 || c = 0x7C

/-- Character class of the lazy body group in the template regex
`[A-Za-z0-9_\,\.\:\*]`.  Note it has no `$`. -/
def isBodyCU (c : Nat) : Bool :=
  isUpperCU c || isLowerCU c || isDigitCU c ||
    c = 0x5F || c = 0x2C || c = 0x2E || c = 0x3A || c = 0x2A

/-- Collect body-class characters up to a closing brace: the only way the
lazy group `([A-Za-z0-9_\,\.\:\*]+?)` followed by `\}` can match, since
`}` is not in the body class. -/
def scanBody : List Nat → Option (JStr × List Nat)
  | [] => none
  | c :: rest =>
    if c = closeBraceCU then some ([], rest)
    else if isBodyCU c then
      match scanBody rest with
      | some (b, r) => some (c :: b, r)
      | none => none
    else none

/-- Regex alternative with the optional operator group empty: the body
must start right after `{` and be non-empty. -/
def tryNoOp (s : List Nat) : Option (Option Nat × JStr × List Nat) :=
  match scanBody s with
  | some (b, r) => if b = [] then none else some (none, b, r)
  | none => none

/-- Match the inside of an expression right after `{`: the greedy
optional operator character first, backtracking to the empty operator
when the rest cannot complete the match. -/
def tryExpr : List Nat → Option (Option Nat × JStr × List Nat)
  | [] => none
  | c :: rest =>
    if isOpCU c then
      match scanBody rest with
      | some (b, r) => if b = [] then tryNoOp (c :: rest) else some (some c, b, r)
      | none => tryNoOp (c :: rest)
    else tryNoOp (c :: rest)

/-- Model of one step of `reTemplate.exec`: split the input into the glue
before the first expression match, the matched operator and body, and the
rest of the input after the match; `none` when no expression matches. -/
def findSplit : List Nat → Option (JStr × Option Nat × JStr × List Nat)
  | [] => none
  | c :: rest =>
    if c = openBraceCU then
      match tryExpr rest with
      | some (op, b, r) => some ([], op, b, r)
      | none =>
        match findSplit rest with
        | some (g, op, b, r) => some (c :: g, op, b, r)
        | none => none
    else
      match findSplit rest with
      | some (g, op, b, r) => some (c :: g, op, b, r)
      | none => none

/-- Sequential effectful map (JS `Array.prototype.map` over a callback
that can throw): the first thrown error aborts the whole map. -/
def mapExc (f : α → Except Unit β) : List α → Except Unit (List β)
  | [] => .ok []
  | a :: as =>
    match f a with
    | .error e => .error e
    | .ok b =>
      match mapExc f as with
      | .error e => .error e
      | .ok bs => .ok (b :: bs)

/-- The `while (match = reTemplate.exec(template))` loop of
`preprocessTemplate`, with structural fuel (any fuel above the input
length is enough, since every match consumes at least one character). -/
def compileLoopGo : Nat → List Nat → Except Unit (List JStr × List Piece)
  | 0, s => .ok ([s], [])
  | fuel + 1, s =>
    match findSplit s with
    | none => .ok ([s], [])
    | some (g, opc, body, r) =>
      match checkReservedOp opc with
      | .error e => .error e
      | .ok op =>
        match mapExc variableMapper (jsSplit [commaCU] body) with
        | .error e => .error e
        | .ok vars =>
          match compileLoopGo fuel r with
          | .error e => .error e
          | .ok (gs, ps) => .ok (g :: gs, ⟨op, vars⟩ :: ps)

/-- Embedding of `preprocessTemplate(template)`: the alternating glue and
expression structure, or a thrown compile error. -/
def preprocessTemplate (t : JStr) : Except Unit (List JStr × List Piece) :=
  compileLoopGo (t.length + 1) t

example : preprocessTemplate (jstr ("/users/{id}")) =
    .ok ([jstr ("/users/"), []], [⟨.plain, [⟨jstr ("id"), none, false⟩]⟩]) := by decide
example : preprocessTemplate (jstr ("{x:3}")) =
    .ok ([[], []], [⟨.plain, [⟨jstr ("x"), some 3, false⟩]⟩]) := by decide
example : preprocessTemplate (jstr ("{a}{b}x")) =
    .ok ([[], [], jstr ("x")],
      [⟨.plain, [⟨jstr ("a"), none, false⟩]⟩, ⟨.plain, [⟨jstr ("b"), none, false⟩]⟩]) := by
  decide
example : preprocessTemplate (jstr ("{=x}")) = .error () := by decide
example : preprocessTemplate (jstr ("{1x}")) = .error () := by decide
example : preprocessTemplate (jstr ("{x:12345}")) = .error () := by decide
example : preprocessTemplate ([openBraceCU, 0x24, 0x61, closeBraceCU]) =
    .ok ([[openBraceCU, 0x24, 0x61, closeBraceCU]], []) := by decide
example : preprocessTemplate (jstr ("{.x,y:22}")) =
    .ok ([[], []],
      [⟨.dot, [⟨jstr ("x"), none, false⟩, ⟨jstr ("y"), some 22, false⟩]⟩]) := by decide
example : preprocessTemplate (jstr ("{.x,y:22*}")) =
    .ok ([[], []],
      [⟨.dot, [⟨jstr ("x"), none, false⟩, ⟨jstr ("y"), some 22, true⟩]⟩]) := by decide

/-- A parse result object mapping variable names to extracted strings,
with JS property-assignment semantics (insertion order, overwrite). -/
abbrev VarMap := List (JStr × JStr)

/-- Model of `data[name] = value` on a JS object. -/
def objSet (d : VarMap) (k v : JStr) : VarMap :=
  match d with
  | [] => [(k, v)]
  | (k', v') :: rest => if k' = k then (k, v) :: rest else (k', v') :: objSet rest k v

/-- The loop body of `getSegmentsOffsets` (both sources, identical loop):
walks the glues, anchoring every non-first empty glue at the end of the
string and every other glue at the first occurrence of its text at or
after the cursor. -/
def segOffsetsGo (s : JStr) : List JStr → Nat → Bool → Option (List Nat)
  | [], _, _ => some []
  | g :: gs, offset, first =>
    let idx? := if first = false ∧ g = [] then some s.length else jsIndexOf s g offset
    match idx? with
    | none => none
    | some idx =>
      match segOffsetsGo s gs (idx + g.length) false with
      | some rest => some (idx :: rest)
      | none => none

/-- Embedding of `getSegmentsOffsets(str, glues)` from
`src/src/UriTemplate.js`: `none` models the returned `false`. -/
def getSegmentsOffsets (s : JStr) (glues : List JStr) : Option (List Nat) :=
  segOffsetsGo s glues 0 true

/-- Embedding of `getSegmentsOffsets(str, glues)` from
`src/unnamed/part_000`, which differs only in throwing
(`throw new Error(null)`) instead of returning `false`. -/
def getSegmentsOffsetsThrow (s : JStr) (glues : List JStr) : Except Unit (List Nat) :=
  match getSegmentsOffsets s glues with
  | some offsets => .ok offsets
  | none => .error ()

/-- The `piece.variables.every(...)` loop of `parse` in
`src/src/UriTemplate.js`: positional `(variable, values[index])` pairs;
once the values run out every remaining variable sees `undefined` and is
left unset.  `.ok none` models `return false`, `.error` a thrown
`URIError` from `decodeURIComponent`. -/
def parseVarsA (opts : OperatorProfile) :
    List Var → List JStr → VarMap → Except Unit (Option VarMap)
  | [], _, data => .ok (some data)
  | _ :: _, [], data => .ok (some data)
  | v :: vs, val :: vals, data =>
    if opts.assignment then
      if ¬(v.name <+: val) then .ok none
      else
        let val1 := val.drop v.name.length
        if val1 = [] ∧ opts.assignEmpty then .ok none
        else if val1 ≠ [] ∧ val1.head? ≠ some equalsCU then .ok none
        else
          let val2 := if val1 = [] then val1 else val1.drop 1
          match decodeURIComponent val2 with
          | .error e => .error e
          | .ok dec => parseVarsA opts vs vals (objSet data v.name dec)
    else
      match decodeURIComponent val with
      | .error e => .error e
      | .ok dec => parseVarsA opts vs vals (objSet data v.name dec)

/-- The `pieces.every(...)` loop of `parse` in `src/src/UriTemplate.js`,
walking pieces, glues and offsets in lockstep (for compiled templates the
lists are aligned: `offsets` and `glues` have one element more than
`pieces`; the final catch-all arm is unreachable then). -/
def parsePiecesA (s : JStr) :
    List Piece → List JStr → List Nat → VarMap → Except Unit (Option VarMap)
  | [], _, _, data => .ok (some data)
  | pc :: ps, g :: gs, o1 :: o2 :: os, data =>
    let opts := operatorOptions pc.operator
    let value := jsSubstring s (o1 + g.length) o2
    if value = [] then parsePiecesA s ps gs (o2 :: os) data
    else if ¬(opts.pre <+: value) then .ok none
    else
      let value1 := value.drop opts.pre.length
      let values := jsSplit opts.sep value1
      match parseVarsA opts pc.vars values data with
      | .error e => .error e
      | .ok none => .ok none
      | .ok (some data') => parsePiecesA s ps gs (o2 :: os) data'
  | _ :: _, _, _, _ => .ok none

/-- Embedding of `parse(str)` from `src/src/UriTemplate.js` (also exposed
unchanged as `this.parse`): `.ok none` models the returned failure value
`false`, `.ok (some m)` a returned mapping, `.error` a thrown exception
(the `decodeURIComponent` `URIError`, which this implementation does not
catch). -/
def parse (glues : List JStr) (pieces : List Piece) (s : JStr) :
    Except Unit (Option VarMap) :=
  match getSegmentsOffsets s glues with
  | none => .ok none
  | some offsets => parsePiecesA s pieces glues offsets []

/-- Embedding of `getValuePart(str, pieceIndex, glues, offsets)` from
`src/unnamed/part_000`. -/
def getValuePart (s : JStr) (g : JStr) (o1 o2 : Nat) : JStr :=
  jsSubstring s (o1 + g.length) o2

/-- The inner `for (let variableIndex in variables)` loop of `parse` in
`src/unnamed/part_000`: `startsWithConsume` throws on a failed prefix,
and the loop breaks when the positional value is `undefined`. -/
def parseVarsB (opts : OperatorProfile) :
    List Var → List JStr → VarMap → Except Unit VarMap
  | [], _, data => .ok data
  | _ :: _, [], data => .ok data
  | v :: vs, val :: vals, data =>
    if opts.assignment then
      if ¬(v.name <+: val) then .error ()
      else
        let val1 := val.drop v.name.length
        if val1 = [] ∧ opts.assignEmpty then .error ()
        else if val1 ≠ [] ∧ ¬([equalsCU] <+: val1) then .error ()
        else
          let val2 := if val1 = [] then val1 else val1.drop 1
          match decodeURIComponent val2 with
          | .error e => .error e
          | .ok dec => parseVarsB opts vs vals (objSet data v.name dec)
    else
      match decodeURIComponent val with
      | .error e => .error e
      | .ok dec => parseVarsB opts vs vals (objSet data v.name dec)

/-- The `pieces.forEach(...)` loop of `parse` in `src/unnamed/part_000`
(failures propagate as thrown errors). -/
def parsePiecesB (s : JStr) :
    List Piece → List JStr → List Nat → VarMap → Except Unit VarMap
  | [], _, _, data => .ok data
  | pc :: ps, g :: gs, o1 :: o2 :: os, data =>
    let opts := operatorOptions pc.operator
    let value := getValuePart s g o1 o2
    if value = [] then parsePiecesB s ps gs (o2 :: os) data
    else if ¬(opts.pre <+: value) then .error ()
    else
      let value1 := value.drop opts.pre.length
      let values := jsSplit opts.sep value1
      match parseVarsB opts pc.vars values data with
      | .error e => .error e
      | .ok data' => parsePiecesB s ps gs (o2 :: os) data'
  | _ :: _, _, _, _ => .error ()

/-- The inner `parse(str)` of `src/unnamed/part_000`, before the
`this.parse` try/catch wrapper: any failure is a thrown error. -/
def parseBRun (glues : List JStr) (pieces : List Piece) (s : JStr) :
    Except Unit VarMap :=
  match getSegmentsOffsetsThrow s glues with
  | .error e => .error e
  | .ok offsets => parsePiecesB s pieces glues offsets []

/-- Embedding of the public `this.parse` of `src/unnamed/part_000`: the
try/catch wrapper that turns every thrown error into the failure value
`false` (modelled by `none`). -/
def parseBPub (glues : List JStr) (pieces : List Piece) (s : JStr) : Option VarMap :=
  match parseBRun glues pieces s with
  | .ok d => some d
  | .error _ => none

/-- Join a list of strings with a separator (`Array.prototype.join`). -/
def joinSep (sep : JStr) : List JStr → JStr
  | [] => []
  | [x] => x
  | x :: xs => x ++ sep ++ joinSep sep xs

/-- Model of JS property lookup `data[name]` (missing keys give
`undefined`). -/
def jsLookup (data : List (JStr × JSValue)) (k : JStr) : JSValue :=
  match data.find? (fun kv => decide (kv.1 = k)) with
  | some kv => kv.2
  | none => (.undef)

/-- JS `typeof value === 'object'`: true for `null`, arrays and objects. -/
def typeofObject : JSValue → Bool
  | .null => true
  | .list _ => true
  | .obj _ => true
  | _ => false

/-- Model of `Object.keys`: index strings for arrays, own keys for
objects; throws on `null`/`undefined`; empty for primitives (unreachable
here: every call site is guarded by `typeof value === 'object'`). -/
def objectKeys : JSValue → Except Unit (List JStr)
  | .null => .error ()
  | .undef => .error ()
  | .list es => .ok ((List.range es.length).map (fun i => jsIntToString (Int.ofNat i)))
  | .obj kvs => .ok (kvs.map (fun kv => kv.1))
  | _ => .ok []

/-- Model of JS property access `value[key]` for the keys produced by
`objectKeys`. -/
def jsIndexVal (v : JSValue) (k : JStr) : JSValue :=
  match v with
  | .obj kvs =>
    (match kvs.find? (fun kv => decide (kv.1 = k)) with
     | some kv => kv.2
     | none => .undef)
  | .list es =>
    (match (List.range es.length).find? (fun i => decide (jsIntToString (Int.ofNat i) = k)) with
     | some i => es.getD i .undef
     | none => .undef)
  | _ => (.undef)

/-- Model of `value.substring(0, n)` as a method call: a `TypeError`
(`.error`) when the receiver is not a string. -/
def jsSubstringMeth (v : JSValue) (a b : Nat) : Except Unit JSValue :=
  match v with
  | .str s => .ok (.str (jsSubstring s a b))
  | _ => .error ()

/-- Truncate by `variable.maxLength` when that is set and truthy
(`if (variable.maxLength) value = value.substring(0, variable.maxLength)`). -/
def applyMaxLength (ml : Option Nat) (v : JSValue) : Except Unit JSValue :=
  match ml with
  | some (n + 1) => jsSubstringMeth v 0 (n + 1)
  | _ => .ok v

/-- The per-key callback in the composite object branch of `stringify`
(lines 262-274 of the source). -/
def renderCompositeKey (opts : OperatorProfile) (vr : Var) (el : JSValue)
    (k : JStr) : Except Unit JStr :=
  match applyMaxLength vr.maxLength (jsIndexVal el k) with
  | .error e => .error e
  | .ok kv =>
    match encodeApply opts.encode kv with
    | .error e => .error e
    | .ok enc =>
      if enc ≠ [] then .ok (k ++ equalsCU :: enc)
      else if opts.assignEmpty then .ok (k ++ [equalsCU])
      else .ok k

/-- One element of a composite (exploded) variable value, lines 257-292 of
the source `stringify`. -/
def renderCompositeElem (opts : OperatorProfile) (vr : Var) (el : JSValue) :
    Except Unit JStr :=
  if typeofObject el then
    match objectKeys el with
    | .error e => .error e
    | .ok keys =>
      match mapExc (renderCompositeKey opts vr el) keys with
      | .error e => .error e
      | .ok parts => .ok (joinSep opts.sep parts)
  else
    match applyMaxLength vr.maxLength el with
    | .error e => .error e
    | .ok el1 =>
      match encodeApply opts.encode el1 with
      | .error e => .error e
      | .ok enc =>
        if opts.assignment then
          if enc ≠ [] then .ok (vr.name ++ equalsCU :: enc)
          else if opts.assignEmpty then .ok (vr.name ++ [equalsCU])
          else .ok vr.name
        else .ok enc

/-- The per-key callback in the non-composite object branch of `stringify`
(lines 298-301 of the source). -/
def renderPlainKey (opts : OperatorProfile) (vr : Var) (el : JSValue)
    (k : JStr) : Except Unit JStr :=
  match applyMaxLength vr.maxLength (jsIndexVal el k) with
  | .error e => .error e
  | .ok kv =>
    match encodeApply opts.encode kv with
    | .error e => .error e
    | .ok enc => .ok (k ++ commaCU :: enc)

/-- One element of a non-composite variable value, lines 296-309 of the
source `stringify`. -/
def renderPlainElem (opts : OperatorProfile) (vr : Var) (el : JSValue) :
    Except Unit JStr :=
  if typeofObject el then
    match objectKeys el with
    | .error e => .error e
    | .ok keys =>
      match mapExc (renderPlainKey opts vr el) keys with
      | .error e => .error e
      | .ok parts => .ok (joinSep [commaCU] parts)
  else
    match applyMaxLength vr.maxLength el with
    | .error e => .error e
    | .ok el1 => encodeApply opts.encode el1

/-- The `piece.variables.map(...)` body of the source `stringify`
(lines 248-323): `none` models the `null` marker for a variable that
contributes nothing. -/
def renderVariable (opts : OperatorProfile) (data : List (JStr × JSValue))
    (vr : Var) : Except Unit (Option JStr) :=
  let value := jsLookup data vr.name
  let arr := (match value with | .list es => es | v => [v]).filter isDefined
  if isUndefined (.list arr) then .ok none
  else if vr.composite then
    match mapExc (renderCompositeElem opts vr) arr with
    | .error e => .error e
    | .ok parts => .ok (some (joinSep opts.sep parts))
  else
    match mapExc (renderPlainElem opts vr) arr with
    | .error e => .error e
    | .ok parts =>
      let joined := joinSep [commaCU] parts
      if opts.assignment then
        if joined ≠ [] then .ok (some (vr.name ++ equalsCU :: joined))
        else if opts.assignEmpty then .ok (some (vr.name ++ [equalsCU]))
        else .ok (some vr.name)
      else .ok (some joined)

/-- The per-piece loop of the source `stringify`: render the variables,
drop the `null` markers, emit `prefix + parts.join(separator)` when any
part remains, then append the following glue (pieces walk in lockstep
with the glues after `glues[0]`; compiled templates keep them aligned). -/
def stringifyGo (data : List (JStr × JSValue)) :
    List Piece → List JStr → Except Unit JStr
  | [], _ => .ok []
  | pc :: ps, glues =>
    let opts := operatorOptions pc.operator
    match mapExc (renderVariable opts data) pc.vars with
    | .error e => .error e
    | .ok parts =>
      let partsF := parts.filterMap id
      let out := if partsF ≠ [] then opts.pre ++ joinSep opts.sep partsF else []
      match stringifyGo data ps glues.tail with
      | .error e => .error e
      | .ok rest => .ok (out ++ glues.headD [] ++ rest)

/-- Embedding of `stringify(data)` from `src/src/UriTemplate.js`
(`src/unnamed/part_000` has the same expander): start with `glues[0]`,
then per-piece output and following glue.  `.error` models a thrown
exception (compiled templates always have at least one glue, so the
degenerate no-glue arm is unreachable). -/
def stringify (glues : List JStr) (pieces : List Piece)
    (data : List (JStr × JSValue)) : Except Unit JStr :=
  match glues with
  | g0 :: gs =>
    (match stringifyGo data pieces gs with
     | .error e => .error e
     | .ok t => .ok (g0 ++ t))
  | [] => stringifyGo data pieces []

example : stringify [jstr ("/users/"), []] [⟨.plain, [⟨jstr ("id"), none, false⟩]⟩]
    [(jstr ("id"), .str (jstr ("42")))] = .ok (jstr ("/users/42")) := by decide
example : parse [jstr ("/users/"), []] [⟨.plain, [⟨jstr ("id"), none, false⟩]⟩]
    (jstr ("/users/42")) = .ok (some [(jstr ("id"), jstr ("42"))]) := by decide
example : parse [jstr ("/users/"), []] [⟨.plain, [⟨jstr ("id"), none, false⟩]⟩]
    (jstr ("/accounts/42")) = .ok none := by decide
example : parse [jstr ("/users/"), []] [⟨.plain, [⟨jstr ("id"), none, false⟩]⟩]
    (jstr ("/users/%zz")) = .error () := by decide
example : parseBPub [jstr ("/users/"), []] [⟨.plain, [⟨jstr ("id"), none, false⟩]⟩]
    (jstr ("/users/%zz")) = none := by decide
example : stringify [[], []] [⟨.quest, [⟨jstr ("q"), none, false⟩, ⟨jstr ("lang"), none, false⟩]⟩]
    [(jstr ("q"), .str (jstr ("tea leaves"))), (jstr ("lang"), .str (jstr ("en")))] =
    .ok (jstr ("?q=tea%20leaves&lang=en")) := by decide
example : stringify [[], []] [⟨.slash, [⟨jstr ("list"), none, true⟩]⟩]
    [(jstr ("list"), .list [.str (jstr ("a")), .str (jstr ("b")), .str (jstr ("c"))])] =
    .ok (jstr ("/a/b/c")) := by decide
example : stringify [[], []] [⟨.semi, [⟨jstr ("x"), none, false⟩, ⟨jstr ("y"), none, false⟩]⟩]
    [(jstr ("x"), .str (jstr ("1024"))), (jstr ("y"), .str ([]))] =
    .ok (jstr (";x=1024;y")) := by decide
example : stringify [[], []] [⟨.plain, [⟨jstr ("x"), some 3, false⟩]⟩]
    [(jstr ("x"), .num 42)] = .error () := by decide
example : stringify [[], []] [⟨.plain, [⟨jstr ("x"), some 3, false⟩]⟩]
    [(jstr ("x"), .str (jstr ("abcde")))] = .ok (jstr ("abc")) := by decide
example : stringify [[], []] [⟨.plain, [⟨jstr ("x"), none, false⟩]⟩] [] = .ok ([]) := by decide

/-- Helper: every successful run of the compile loop yields one more glue
than pieces (one glue is pushed per match, plus the final tail glue). -/
theorem compileLoopGo_length :
    ∀ (fuel : Nat) (s : List Nat) (gs : List JStr) (ps : List Piece),
      compileLoopGo fuel s = .ok (gs, ps) → gs.length = ps.length + 1 := by
  intro fuel
  induction fuel with
  | zero =>
    intro s gs ps h
    simp only [compileLoopGo] at h
    injection h with h'
    injection h' with h1 h2
    subst h1; subst h2; rfl
  | succ n ih =>
    intro s gs ps h
    simp only [compileLoopGo] at h
    split at h
    · injection h with h'
      injection h' with h1 h2
      subst h1; subst h2; rfl
    · split at h
      · exact Except.noConfusion h
      · split at h
        · exact Except.noConfusion h
        · split at h
          · exact Except.noConfusion h
          · rename_i heq
            injection h with h'
            injection h' with h1 h2
            subst h1; subst h2
            simp [ih _ _ _ heq]

/-- C8: for every template string on which compilation succeeds, the
compiled structure satisfies `glues.length == expressions.length + 1`. -/
theorem c8_glues_length_invariant (t : JStr) (gs : List JStr) (ps : List Piece)
    (h : preprocessTemplate t = .ok (gs, ps)) : gs.length = ps.length + 1 :=
  compileLoopGo_length _ _ _ _ h

/-- Witness for C8 at the concrete template `"/users/{id}"`. -/
theorem c8_glues_length_invariant_witness :
    ([jstr ("/users/"), []] : List JStr).length =
      ([⟨.plain, [⟨jstr ("id"), none, false⟩]⟩] : List Piece).length + 1 :=
  c8_glues_length_invariant (jstr ("/users/{id}")) _ _ (by decide)

/-- C1 (code bug): on the compiled template `"/users/{id}"` and candidate
`"/users/%zz"`, the `parse` of `src/src/UriTemplate.js` propagates the
`URIError` thrown by `decodeURIComponent` on the malformed escape
(`.error`), instead of returning the failure value `false`; the wrapped
`this.parse` of `src/unnamed/part_000` returns `false` (`none`) as the
claim demands. -/
theorem c1_parse_propagates_uri_error :
    preprocessTemplate (jstr ("/users/{id}")) =
      .ok ([jstr ("/users/"), []], [⟨.plain, [⟨jstr ("id"), none, false⟩]⟩]) ∧
    parse [jstr ("/users/"), []] [⟨.plain, [⟨jstr ("id"), none, false⟩]⟩]
      (jstr ("/users/%zz")) = .error () ∧
    parseBPub [jstr ("/users/"), []] [⟨.plain, [⟨jstr ("id"), none, false⟩]⟩]
      (jstr ("/users/%zz")) = none := by decide

/-- C5 (code bug): on the compiled template `"{x:3}"` with the defined
non-string scalar value `42`, `stringify` calls `.substring` on a number
and throws a `TypeError` (`.error`) instead of returning a string. -/
theorem c5_stringify_throws_on_maxlength_number :
    preprocessTemplate (jstr ("{x:3}")) =
      .ok ([[], []], [⟨.plain, [⟨jstr ("x"), some 3, false⟩]⟩]) ∧
    stringify [[], []] [⟨.plain, [⟨jstr ("x"), some 3, false⟩]⟩]
      [(jstr ("x"), .num 42)] = .error () := by decide

/-- The anchor rule exactly as claim C2 words it: the consume-to-end case
applies only when the non-first empty glue is also the last glue. -/
def claimAnchorsGo (s : JStr) : List JStr → Nat → Bool → Option (List Nat)
  | [], _, _ => some []
  | g :: gs, offset, first =>
    let idx? :=
      if first = false ∧ g = [] ∧ gs = [] then some s.length
      else jsIndexOf s g offset
    match idx? with
    | none => none
    | some idx =>
      match claimAnchorsGo s gs (idx + g.length) false with
      | some rest => some (idx :: rest)
      | none => none

/-- The boundary-recovery pass as described by claim C2 (restricting the
end-of-string anchor to the last glue). -/
def claimAnchors (s : JStr) (glues : List JStr) : Option (List Nat) :=
  claimAnchorsGo s glues 0 true

/-- C2 counterexample: for the compiled template `"{a}{b}x"` (glues
`["", "", "x"]`) and candidate `"abx"`, the code anchors the middle empty
glue at the end of the string and then fails (`none`), whereas the rule
stated by the claim anchors it at the cursor and yields `[0, 0, 2]`. -/
theorem c2_counterexample :
    preprocessTemplate (jstr ("{a}{b}x")) =
      .ok ([[], [], jstr ("x")],
        [⟨.plain, [⟨jstr ("a"), none, false⟩]⟩, ⟨.plain, [⟨jstr ("b"), none, false⟩]⟩]) ∧
    getSegmentsOffsets (jstr ("abx")) [[], [], jstr ("x")] = none ∧
    claimAnchors (jstr ("abx")) [[], [], jstr ("x")] = some [0, 0, 2] := by decide

/-- Characterization of the linear scan `firstOccGo`: it returns exactly
the least matching position within its fuel window. -/
theorem firstOccGo_eq_some_iff (s pat : JStr) :
    ∀ (fuel p q : Nat), firstOccGo s pat p fuel = some q ↔
      p ≤ q ∧ q < p + fuel ∧ matchesAt s pat q = true ∧
        ∀ r, p ≤ r → r < q → matchesAt s pat r = false := by
  intro fuel
  induction fuel with
  | zero =>
    intro p q
    simp only [firstOccGo]
    constructor
    · intro h; exact Option.noConfusion h
    · rintro ⟨h1, h2, -, -⟩; omega
  | succ n ih =>
    intro p q
    simp only [firstOccGo]
    by_cases hm : matchesAt s pat p = true
    · simp only [hm, if_true]
      constructor
      · intro h
        injection h with h'
        subst h'
        exact ⟨Nat.le_refl _, by omega, hm, fun r hr1 hr2 => absurd hr1 (by omega)⟩
      · rintro ⟨h1, h2, h3, h4⟩
        rcases Nat.eq_or_lt_of_le h1 with h | h
        · simp [h]
        · exact absurd (h4 p (Nat.le_refl _) h) (by simp [hm])
    · have hm' : matchesAt s pat p = false := by
        cases hb : matchesAt s pat p
        · rfl
        · exact absurd hb hm
      simp only [hm', Bool.false_eq_true, if_false]
      rw [ih]
      constructor
      · rintro ⟨h1, h2, h3, h4⟩
        refine ⟨by omega, by omega, h3, fun r hr1 hr2 => ?_⟩
        rcases Nat.eq_or_lt_of_le hr1 with h | h
        · subst h; exact hm'
        · exact h4 r h hr2
      · rintro ⟨h1, h2, h3, h4⟩
        have hpq : p ≠ q := by
          intro h
          subst h
          exact absurd h3 (by simp [hm'])
        refine ⟨by omega, by omega, h3, fun r hr1 hr2 => h4 r (by omega) hr2⟩

/-- Characterization of the failing scan. -/
theorem firstOccGo_eq_none_iff (s pat : JStr) :
    ∀ (fuel p : Nat), firstOccGo s pat p fuel = none ↔
      ∀ r, p ≤ r → r < p + fuel → matchesAt s pat r = false := by
  intro fuel
  induction fuel with
  | zero =>
    intro p
    simp only [firstOccGo]
    constructor
    · intro _ r h1 h2
      exact absurd h2 (by omega)
    · intro _
      trivial
  | succ n ih =>
    intro p
    simp only [firstOccGo]
    by_cases hm : matchesAt s pat p = true
    · simp only [hm, if_true]
      constructor
      · intro h; exact Option.noConfusion h
      · intro h
        exact absurd (h p (Nat.le_refl _) (by omega)) (by simp [hm])
    · have hm' : matchesAt s pat p = false := by
        cases hb : matchesAt s pat p
        · rfl
        · exact absurd hb hm
      simp only [hm', Bool.false_eq_true, if_false]
      rw [ih]
      constructor
      · intro h r hr1 hr2
        rcases Nat.eq_or_lt_of_le hr1 with h' | h'
        · subst h'; exact hm'
        · exact h r h' (by omega)
      · intro h r hr1 hr2
        exact h r (by omega) (by omega)

/-- A match never starts beyond the end of the string unless the pattern
is empty. -/
theorem matchesAt_gt_length (s pat : JStr) (r : Nat) (h : s.length ≤ r) :
    matchesAt s pat r = true ↔ pat = [] := by
  unfold matchesAt
  rw [List.drop_eq_nil_of_le h]
  simp [List.prefix_nil]

/-- `p` is the first occurrence of `pat` in `s` at or after `b`. -/
def FirstOccFrom (s pat : JStr) (b p : Nat) : Prop :=
  b ≤ p ∧ p ≤ s.length ∧ matchesAt s pat p = true ∧
    ∀ r, b ≤ r → r < p → matchesAt s pat r = false

/-- `jsIndexOf` computes exactly the first occurrence at or after the
clamped start position. -/
theorem jsIndexOf_eq_some_iff (s pat : JStr) (p0 q : Nat) :
    jsIndexOf s pat p0 = some q ↔ FirstOccFrom s pat (min p0 s.length) q := by
  unfold jsIndexOf FirstOccFrom
  rw [firstOccGo_eq_some_iff]
  have hb : min p0 s.length ≤ s.length := Nat.min_le_right _ _
  constructor
  · rintro ⟨h1, h2, h3, h4⟩
    exact ⟨h1, by omega, h3, h4⟩
  · rintro ⟨h1, h2, h3, h4⟩
    exact ⟨h1, by omega, h3, h4⟩

/-- `jsIndexOf` fails exactly when no position up to the end of the
string matches. -/
theorem jsIndexOf_eq_none_iff (s pat : JStr) (p0 : Nat) :
    jsIndexOf s pat p0 = none ↔
      ∀ r, min p0 s.length ≤ r → r ≤ s.length → matchesAt s pat r = false := by
  unfold jsIndexOf
  rw [firstOccGo_eq_none_iff]
  have hb : min p0 s.length ≤ s.length := Nat.min_le_right _ _
  constructor
  · intro h r h1 h2
    exact h r h1 (by omega)
  · intro h r h1 h2
    exact h r h1 (by omega)

/-- One anchoring step of the (corrected) boundary-recovery rule: a
non-first empty glue anchors at the end of the string, every other glue
anchors at the first occurrence of its text at or after the cursor. -/
def StepAnchor (s g : JStr) (cur : Nat) (first : Bool) (a : Nat) : Prop :=
  (first = false ∧ g = [] ∧ a = s.length) ∨
    (¬(first = false ∧ g = []) ∧ FirstOccFrom s g (min cur s.length) a)

/-- An anchoring step fails: the glue is searched (not a non-first empty
glue) and its text occurs nowhere at or after the cursor. -/
def StepFail (s g : JStr) (cur : Nat) (first : Bool) : Prop :=
  ¬(first = false ∧ g = []) ∧
    ∀ r, min cur s.length ≤ r → r ≤ s.length → matchesAt s g r = false

/-- Relational form of the boundary-recovery pass: for each glue in order
either the step fails (yielding `none`) or an anchor per `StepAnchor` is
recorded and the cursor advances past the glue. -/
def AnchorsRel (s : JStr) : List JStr → Nat → Bool → Option (List Nat) → Prop
  | [], _, _, res => res = some []
  | g :: gs, cur, first, res =>
    (StepFail s g cur first ∧ res = none) ∨
      ∃ a, StepAnchor s g cur first a ∧
        ((res = none ∧ AnchorsRel s gs (a + g.length) false none) ∨
          ∃ rest, res = some (a :: rest) ∧ AnchorsRel s gs (a + g.length) false (some rest))

/-- Computation rule for one anchoring step that found an index. -/
theorem segOffsetsGo_cons_some (s g : JStr) (gs : List JStr) (cur : Nat) (first : Bool)
    (idx : Nat)
    (h : (if first = false ∧ g = [] then some s.length else jsIndexOf s g cur) = some idx) :
    segOffsetsGo s (g :: gs) cur first =
      match segOffsetsGo s gs (idx + g.length) false with
      | some rest => some (idx :: rest)
      | none => none := by
  simp only [segOffsetsGo, h]

/-- Computation rule for one anchoring step that found no index. -/
theorem segOffsetsGo_cons_none (s g : JStr) (gs : List JStr) (cur : Nat) (first : Bool)
    (h : (if first = false ∧ g = [] then some s.length else jsIndexOf s g cur) = none) :
    segOffsetsGo s (g :: gs) cur first = none := by
  simp only [segOffsetsGo, h]

/-- The loop of `getSegmentsOffsets` satisfies the relational anchor rule
from any starting cursor. -/
theorem segOffsetsGo_anchorsRel (s : JStr) :
    ∀ (glues : List JStr) (cur : Nat) (first : Bool),
      AnchorsRel s glues cur first (segOffsetsGo s glues cur first) := by
  intro glues
  induction glues with
  | nil =>
    intro cur first
    simp [segOffsetsGo, AnchorsRel]
  | cons g gs ih =>
    intro cur first
    by_cases hf : first = false ∧ g = []
    · rw [segOffsetsGo_cons_some s g gs cur first s.length (by rw [if_pos hf])]
      cases hrec : segOffsetsGo s gs (s.length + g.length) false with
      | none =>
        have h2 := ih (s.length + g.length) false
        rw [hrec] at h2
        exact Or.inr ⟨s.length, Or.inl ⟨hf.1, hf.2, rfl⟩, Or.inl ⟨rfl, h2⟩⟩
      | some rest =>
        have h2 := ih (s.length + g.length) false
        rw [hrec] at h2
        exact Or.inr ⟨s.length, Or.inl ⟨hf.1, hf.2, rfl⟩, Or.inr ⟨rest, rfl, h2⟩⟩
    · cases hidx : jsIndexOf s g cur with
      | none =>
        rw [segOffsetsGo_cons_none s g gs cur first (by rw [if_neg hf, hidx])]
        exact Or.inl ⟨⟨hf, (jsIndexOf_eq_none_iff s g cur).mp hidx⟩, rfl⟩
      | some a =>
        rw [segOffsetsGo_cons_some s g gs cur first a (by rw [if_neg hf, hidx])]
        cases hrec : segOffsetsGo s gs (a + g.length) false with
        | none =>
          have h2 := ih (a + g.length) false
          rw [hrec] at h2
          exact Or.inr ⟨a, Or.inr ⟨hf, (jsIndexOf_eq_some_iff s g cur a).mp hidx⟩,
            Or.inl ⟨rfl, h2⟩⟩
        | some rest =>
          have h2 := ih (a + g.length) false
          rw [hrec] at h2
          exact Or.inr ⟨a, Or.inr ⟨hf, (jsIndexOf_eq_some_iff s g cur a).mp hidx⟩,
            Or.inr ⟨rest, rfl, h2⟩⟩

/-- C2 amended: during the boundary-recovery pass, every non-first empty
glue (whether or not it is the last glue) is anchored at the end of the
candidate string; every other glue is anchored at the first occurrence of
its text at or after the cursor, and the pass fails when no such
occurrence exists. -/
theorem c2_amended_every_nonfirst_empty_glue_anchors_at_end
    (s : JStr) (glues : List JStr) :
    AnchorsRel s glues 0 true (getSegmentsOffsets s glues) :=
  segOffsetsGo_anchorsRel s glues 0 true

/-- Uppercase hexadecimal digit character. -/
def isHexDigitUC (c : Nat) : Bool := isDigitCU c || (0x41 ≤ c && c ≤ 0x46)

/-- Value of an uppercase hexadecimal digit character. -/
def hexDigitValUC (c : Nat) : Nat := if c ≤ 0x39 then c - 0x30 else c - 0x37

/-- Value represented by a big-endian string of uppercase hex digits. -/
def hexValOf (l : JStr) : Nat := l.foldl (fun acc c => 16 * acc + hexDigitValUC c) 0

/-- An unpadded uppercase hexadecimal representation of `n`: non-empty,
all uppercase hexadecimal digits, no leading zero (except for `"0"`
itself), and representing exactly `n`. -/
def IsUpperHexRepr (l : JStr) (n : Nat) : Prop :=
  l ≠ [] ∧ (∀ c ∈ l, isHexDigitUC c = true) ∧
    (l.head? = some 0x30 → l.length = 1) ∧ hexValOf l = n

instance (l : JStr) (n : Nat) : Decidable (IsUpperHexRepr l n) := by
  unfold IsUpperHexRepr
  infer_instance

theorem jsToUpperCase_append (a b : JStr) :
    jsToUpperCase (a ++ b) = jsToUpperCase a ++ jsToUpperCase b := by
  simp [jsToUpperCase]

theorem jsToUpperCase_single (c : Nat) :
    jsToUpperCase [c] = [if isLowerCU c then c - 0x20 else c] := rfl

theorem head?_append_of_ne_nil {l l' : JStr} (h : l ≠ []) :
    (l ++ l').head? = l.head? := by
  cases l with
  | nil => exact absurd rfl h
  | cons a t => rfl

theorem hexValOf_append_single (A : JStr) (x : Nat) :
    hexValOf (A ++ [x]) = 16 * hexValOf A + hexDigitValUC x := by
  simp [hexValOf, List.foldl_append]

/-- The uppercased single hex digit emitted for a value below 16 is a
correct one-digit representation. -/
theorem ucHexChar_spec (d : Nat) (h : d < 16) :
    IsUpperHexRepr (jsToUpperCase [hexCharLower d]) d := by
  interval_cases d <;> decide

/-- The uppercased output of the fueled hex-digit writer is an unpadded
uppercase hexadecimal representation. -/
theorem upperHexDigits_spec :
    ∀ (fuel n : Nat), n < fuel → IsUpperHexRepr (jsToUpperCase (hexDigitsGo n fuel)) n := by
  intro fuel
  induction fuel with
  | zero => intro n hn; exact absurd hn (Nat.not_lt_zero n)
  | succ f ih =>
    intro n hn
    by_cases hlt : n < 16
    · simp only [hexDigitsGo, if_pos hlt]
      exact ucHexChar_spec n hlt
    · have h16 : 16 ≤ n := Nat.le_of_not_lt hlt
      simp only [hexDigitsGo, if_neg hlt, jsToUpperCase_append]
      obtain ⟨hA1, hA2, hA3, hA4⟩ := ih (n / 16) (by omega)
      have hd := ucHexChar_spec (n % 16) (by omega)
      obtain ⟨-, hd2, -, hd4⟩ := hd
      refine ⟨?_, ?_, ?_, ?_⟩
      · intro hc
        exact hA1 (List.append_eq_nil.mp hc).1
      · intro c hc
        rcases List.mem_append.mp hc with h | h
        · exact hA2 c h
        · exact hd2 c h
      · intro hh
        rw [head?_append_of_ne_nil hA1] at hh
        have hlen := hA3 hh
        have hzero : jsToUpperCase (hexDigitsGo (n / 16) f) = [0x30] := by
          cases hA : jsToUpperCase (hexDigitsGo (n / 16) f) with
          | nil => rw [hA] at hh; exact Option.noConfusion hh
          | cons a t =>
            rw [hA] at hh hlen
            simp only [List.head?_cons, Option.some.injEq] at hh
            simp only [List.length_cons] at hlen
            subst hh
            cases t with
            | nil => rfl
            | cons b t' => simp at hlen
        rw [hzero] at hA4
        simp only [hexValOf, List.foldl_cons, List.foldl_nil, hexDigitValUC] at hA4
        norm_num at hA4
        omega
      · rw [jsToUpperCase_single] at hd4 ⊢
        rw [hexValOf_append_single, hA4]
        simp only [hexValOf, List.foldl_cons, List.foldl_nil] at hd4
        omega

/-- The pass-through set of the strict encoder: ASCII letters, digits and
`-._~` (the set the spec and claim C4 describe). -/
def isStrictUnescaped (c : Nat) : Bool :=
  isDigitCU c || isUpperCU c || isLowerCU c || isUnreservedPunct c

/-- C4 counterexample: a code point below `0x10` is escaped with a single
hexadecimal digit (`"%A"` for U+000A), not the claimed two-digit `%XX`
form, and a code point above `0xFF` is escaped with four digits. -/
theorem c4_counterexample :
    percentTransform 0x0A = jstr ("%A") ∧ percentTransform 0x0A ≠ jstr ("%0A") ∧
    percentTransform 0x20AC = jstr ("%20AC") := by decide

/-- C4 amended: the strict encoder passes ASCII letters, digits and
`-._~` through unchanged, and replaces every other character by a percent
sign followed by the unpadded uppercase hexadecimal digits of its code
point (one digit below 0x10, two in 0x10..0xFF, more above 0xFF). -/
theorem c4_amended_percent_unpadded_hex (c : Nat) :
    percentTransform c =
      (if isStrictUnescaped c = true then [c]
       else percentCU :: jsToUpperCase (jsToStringHex c)) ∧
    IsUpperHexRepr (jsToUpperCase (jsToStringHex c)) c := by
  constructor
  · by_cases hc : isStrictUnescaped c = true
    · rw [if_pos hc]
      have hc' := hc
      simp only [isStrictUnescaped, isDigitCU, isUpperCU, isLowerCU, isUnreservedPunct,
        Bool.or_eq_true, Bool.and_eq_true, decide_eq_true_eq] at hc'
      unfold percentTransform
      split_ifs with h1 h2 h3 h4
      · rfl
      · rfl
      · rfl
      · rfl
      · exfalso
        simp only [isUnreservedPunct, Bool.or_eq_true, decide_eq_true_eq] at h4
        omega
    · rw [if_neg hc]
      have hc' := hc
      simp only [isStrictUnescaped, isDigitCU, isUpperCU, isLowerCU, isUnreservedPunct,
        Bool.or_eq_true, Bool.and_eq_true, decide_eq_true_eq, not_or] at hc'
      unfold percentTransform
      split_ifs with h1 h2 h3 h4
      · exfalso; omega
      · exfalso; omega
      · exfalso; omega
      · exfalso
        simp only [isUnreservedPunct, Bool.or_eq_true, decide_eq_true_eq] at h4
        omega
      · rfl
  · exact upperHexDigits_spec (c + 1) c (Nat.lt_succ_self c)

/-- Witness for C4 amended at the concrete code point U+000A. -/
theorem c4_amended_witness :
    percentTransform 10 =
      (if isStrictUnescaped 10 = true then [10]
       else percentCU :: jsToUpperCase (jsToStringHex 10)) ∧
    IsUpperHexRepr (jsToUpperCase (jsToStringHex 10)) 10 :=
  c4_amended_percent_unpadded_hex 10

/-- C3 counterexample: under the `/` operator expansion encodes with the
`encodeURIComponent` built-in, which passes `!` through unchanged, while
the strict unreserved-only encoder `percentEncode` yields `%21`. -/
theorem c3_counterexample :
    (operatorOptions Op.slash).encode = EncMode.uriComp ∧
    encodeApply (operatorOptions Op.slash).encode (.str (jstr ("!"))) = .ok (jstr ("!")) ∧
    percentEncode (.str (jstr ("!"))) = jstr ("%21") := by decide

/-- C3 amended: only the `.` operator (and the empty operator) uses the
strict encoder `percentEncode`; the operators `/`, `;`, `?` and `&` use
the `encodeURIComponent` built-in.  That built-in agrees with the strict
encoder character-wise exactly on ASCII code points in `0x10..0x7F`
outside `! ' ( ) *`, and differs elsewhere (e.g. at `!`). -/
theorem c3_amended_encoder_table :
    (operatorOptions Op.dot).encode = EncMode.strict ∧
    (operatorOptions Op.slash).encode = EncMode.uriComp ∧
    (operatorOptions Op.semi).encode = EncMode.uriComp ∧
    (operatorOptions Op.quest).encode = EncMode.uriComp ∧
    (operatorOptions Op.amp).encode = EncMode.uriComp ∧
    (∀ c : Fin 0x80, 0x10 ≤ c.val → ¬c.val ∈ [0x21, 0x27, 0x28, 0x29, 0x2A] →
      encodeURIStr isComponentUnescaped [c.val] = .ok (percentTransform c.val)) ∧
    encodeURIStr isComponentUnescaped (jstr ("!")) = .ok (jstr ("!")) ∧
    percentTransform 0x21 = jstr ("%21") := by decide

/-- Witness for C3 amended: the agreement instance at `/` (0x2F). -/
theorem c3_amended_witness :
    encodeURIStr isComponentUnescaped [0x2F] = .ok (percentTransform 0x2F) :=
  c3_amended_encoder_table.2.2.2.2.2.1 ⟨0x2F, by norm_num⟩ (by norm_num) (by decide)

/-- First character of the amended (dollar-free) name grammar
`[A-Za-z_]`. -/
def isAsciiNameStart (c : Nat) : Bool := c = 0x5F || isLowerCU c || isUpperCU c

/-- Continuation character of the amended name grammar `[A-Za-z0-9_]`. -/
def isAsciiNameCU (c : Nat) : Bool := isAsciiNameStart c || isDigitCU c

/-- A name in the amended grammar `[A-Za-z_][A-Za-z0-9_]*`. -/
def validName : JStr → Bool
  | [] => false
  | c :: rest => isAsciiNameStart c && rest.all isAsciiNameCU

theorem nameStart_not_op {c : Nat} (h : isAsciiNameStart c = true) :
    ¬ isOpCU c = true := by
  simp only [isAsciiNameStart, isLowerCU, isUpperCU, Bool.or_eq_true, Bool.and_eq_true,
    decide_eq_true_eq] at h
  simp only [isOpCU, Bool.or_eq_true, decide_eq_true_eq]
  omega

theorem nameCU_body {c : Nat} (h : isAsciiNameCU c = true) : isBodyCU c = true := by
  simp only [isAsciiNameCU, isAsciiNameStart, isLowerCU, isUpperCU, isDigitCU,
    Bool.or_eq_true, Bool.and_eq_true, decide_eq_true_eq] at h
  simp only [isBodyCU, isLowerCU, isUpperCU, isDigitCU, Bool.or_eq_true, Bool.and_eq_true,
    decide_eq_true_eq]
  omega

theorem nameStart_nameCU {c : Nat} (h : isAsciiNameStart c = true) :
    isAsciiNameCU c = true := by
  simp only [isAsciiNameCU, Bool.or_eq_true]
  exact Or.inl h

theorem bodyCU_ne_closeBrace {c : Nat} (h : isBodyCU c = true) : ¬ c = closeBraceCU := by
  simp only [isBodyCU, isLowerCU, isUpperCU, isDigitCU, Bool.or_eq_true, Bool.and_eq_true,
    decide_eq_true_eq] at h
  simp only [closeBraceCU]
  omega

theorem nameCU_not_comma {c : Nat} (h : isAsciiNameCU c = true) : ¬ c = commaCU := by
  simp only [isAsciiNameCU, isAsciiNameStart, isLowerCU, isUpperCU, isDigitCU,
    Bool.or_eq_true, Bool.and_eq_true, decide_eq_true_eq] at h
  simp only [commaCU]
  omega

theorem nameStart_nameStartCU {c : Nat} (h : isAsciiNameStart c = true) :
    isNameStartCU c = true := by
  simp only [isAsciiNameStart, isLowerCU, isUpperCU, Bool.or_eq_true, Bool.and_eq_true,
    decide_eq_true_eq] at h
  simp only [isNameStartCU, isLowerCU, isUpperCU, Bool.or_eq_true, Bool.and_eq_true,
    decide_eq_true_eq]
  omega

theorem nameCU_nameCU {c : Nat} (h : isAsciiNameCU c = true) : isNameCU c = true := by
  simp only [isAsciiNameCU, isAsciiNameStart, isLowerCU, isUpperCU, isDigitCU,
    Bool.or_eq_true, Bool.and_eq_true, decide_eq_true_eq] at h
  simp only [isNameCU, isNameStartCU, isLowerCU, isUpperCU, isDigitCU,
    Bool.or_eq_true, Bool.and_eq_true, decide_eq_true_eq]
  omega

theorem takeWhile_all {p : Nat → Bool} :
    ∀ (l : JStr), (∀ x ∈ l, p x = true) → l.takeWhile p = l := by
  intro l
  induction l with
  | nil => intro _; rfl
  | cons a t ih =>
    intro h
    have ht := ih (fun x hx => h x (List.mem_cons_of_mem a hx))
    simp [List.takeWhile_cons, h a (List.mem_cons_self a t), ht]

theorem dropWhile_all {p : Nat → Bool} :
    ∀ (l : JStr), (∀ x ∈ l, p x = true) → l.dropWhile p = [] := by
  intro l
  induction l with
  | nil => intro _; rfl
  | cons a t ih =>
    intro h
    have ht := ih (fun x hx => h x (List.mem_cons_of_mem a hx))
    simp [List.dropWhile_cons, h a (List.mem_cons_self a t), ht]

/-- Scanning an all-body-class string followed by a closing brace
consumes exactly that string. -/
theorem scanBody_all_body :
    ∀ (m : JStr), (∀ c ∈ m, isBodyCU c = true) →
      scanBody (m ++ [closeBraceCU]) = some (m, []) := by
  intro m
  induction m with
  | nil => intro _; rfl
  | cons c rest ih =>
    intro h
    have hc := h c (List.mem_cons_self c rest)
    have ht := ih (fun x hx => h x (List.mem_cons_of_mem c hx))
    simp only [List.cons_append, scanBody, if_neg (bodyCU_ne_closeBrace hc), if_pos hc,
      List.append_eq]
    rw [ht]

/-- Splitting an all-name-character string on commas is the identity. -/
theorem jsSplit_comma_name (n : JStr) (h : ∀ c ∈ n, isAsciiNameCU c = true) :
    jsSplit [commaCU] n = [n] := by
  have hnone : jsIndexOf n [commaCU] 0 = none := by
    rw [jsIndexOf_eq_none_iff]
    intro r _ _
    unfold matchesAt
    rw [decide_eq_false_iff_not]
    intro hpre
    have hmem : commaCU ∈ n.drop r := by
      rcases hpre with ⟨u, hu⟩
      rw [← hu]
      exact List.mem_append_left u (List.mem_singleton_self commaCU)
    exact nameCU_not_comma (h commaCU (List.drop_subset r n hmem)) rfl
  unfold jsSplit
  rw [if_neg (by exact List.cons_ne_nil commaCU [])]
  cases hn : n.length + 1 with
  | zero => omega
  | succ k =>
    simp only [jsSplitGo, hnone]

/-- A token in the amended name grammar parses to a bare variable. -/
theorem parseVarToken_simple (n : JStr) (h : validName n = true) :
    parseVarToken n = some ⟨n, none, false⟩ := by
  cases n with
  | nil => exact absurd h (by simp [validName])
  | cons c rest =>
    simp only [validName, Bool.and_eq_true, List.all_eq_true] at h
    obtain ⟨h1, h2⟩ := h
    simp only [parseVarToken, if_pos (nameStart_nameStartCU h1)]
    rw [takeWhile_all rest (fun x hx => nameCU_nameCU (h2 x hx)),
      dropWhile_all rest (fun x hx => nameCU_nameCU (h2 x hx))]

/-- Computation rule: an expression match right at an opening brace. -/
theorem findSplit_openBrace (X : List Nat) (op : Option Nat) (b : JStr) (r : List Nat)
    (h : tryExpr X = some (op, b, r)) :
    findSplit (openBraceCU :: X) = some ([], op, b, r) := by
  simp only [findSplit, h]
  simp

/-- Computation rule: one successful iteration of the compile loop. -/
theorem compileLoopGo_step (fuel : Nat) (s g : List Nat) (opc : Option Nat)
    (body r : List Nat) (hf : findSplit s = some (g, opc, body, r))
    (op : Op) (hop : checkReservedOp opc = .ok op)
    (vars : List Var) (hv : mapExc variableMapper (jsSplit [commaCU] body) = .ok vars)
    (gs : List JStr) (ps : List Piece) (hrec : compileLoopGo fuel r = .ok (gs, ps)) :
    compileLoopGo (fuel + 1) s = .ok (g :: gs, ⟨op, vars⟩ :: ps) := by
  simp only [compileLoopGo, hf, hop, hv, hrec]

/-- The compile loop on the empty remainder. -/
theorem compileLoopGo_nil : ∀ fuel : Nat, compileLoopGo fuel [] = .ok ([[]], []) := by
  intro fuel
  cases fuel with
  | zero => rfl
  | succ f => rfl

/-- C7 counterexample: compiling `"{$a}"` (a name that matches
`reVariable`, which allows `$`) produces zero expressions: the braced
text stays literal glue, because the template scanner's body class has no
`$`. -/
theorem c7_counterexample :
    parseVarToken [0x24, 0x61] = some ⟨[0x24, 0x61], none, false⟩ ∧
    preprocessTemplate [openBraceCU, 0x24, 0x61, closeBraceCU] =
      .ok ([[openBraceCU, 0x24, 0x61, closeBraceCU]], []) := by decide

/-- C7 amended: for every name in the dollar-free grammar
`[A-Za-z_][A-Za-z0-9_]*`, compiling `"{" + name + "}"` yields exactly one
expression with the empty operator and that single bare variable. -/
theorem c7_amended_braced_name_compiles (n : JStr) (h : validName n = true) :
    preprocessTemplate (openBraceCU :: n ++ [closeBraceCU]) =
      .ok ([[], []], [⟨.plain, [⟨n, none, false⟩]⟩]) := by
  cases hn : n with
  | nil => rw [hn] at h; exact absurd h (by simp [validName])
  | cons c rest =>
    rw [hn] at h
    simp only [validName, Bool.and_eq_true, List.all_eq_true] at h
    obtain ⟨h1, h2⟩ := h
    have hbody : ∀ x ∈ c :: rest, isBodyCU x = true := by
      intro x hx
      rcases List.mem_cons.mp hx with rfl | hx'
      · exact nameCU_body (nameStart_nameCU h1)
      · exact nameCU_body (h2 x hx')
    have hname : ∀ x ∈ c :: rest, isAsciiNameCU x = true := by
      intro x hx
      rcases List.mem_cons.mp hx with rfl | hx'
      · exact nameStart_nameCU h1
      · exact h2 x hx'
    have htry : tryExpr ((c :: rest) ++ [closeBraceCU]) = some (none, c :: rest, []) := by
      rw [List.cons_append]
      simp only [tryExpr, if_neg (nameStart_not_op h1)]
      unfold tryNoOp
      rw [show (c :: (rest ++ [closeBraceCU])) = ((c :: rest) ++ [closeBraceCU]) from
          (List.cons_append c rest _).symm,
        scanBody_all_body (c :: rest) hbody]
      simp
    have hfind := findSplit_openBrace _ _ _ _ htry
    have hsplit := jsSplit_comma_name (c :: rest) hname
    have hvar : mapExc variableMapper [c :: rest] = .ok [⟨c :: rest, none, false⟩] := by
      simp only [mapExc, variableMapper,
        parseVarToken_simple (c :: rest) (by
          simp only [validName, Bool.and_eq_true, List.all_eq_true]
          exact ⟨h1, h2⟩)]
    have hlen : (openBraceCU :: (c :: rest) ++ [closeBraceCU]).length = rest.length + 3 := by
      simp
    unfold preprocessTemplate
    rw [hlen]
    exact compileLoopGo_step (rest.length + 3) _ _ _ _ _ hfind .plain rfl _
      (by rw [hsplit]; exact hvar) _ _ (compileLoopGo_nil _)

/-- Witness for C7 amended at the concrete name `"id"`. -/
theorem c7_amended_witness :
    preprocessTemplate (openBraceCU :: jstr ("id") ++ [closeBraceCU]) =
      .ok ([[], []], [⟨.plain, [⟨jstr ("id"), none, false⟩]⟩]) :=
  c7_amended_braced_name_compiles (jstr ("id")) (by decide)

/-- Map a `src/src` parse outcome to the corresponding `part_000`
outcome before its try/catch: `false` becomes a thrown error. -/
def resA2B : Except Unit (Option VarMap) → Except Unit VarMap
  | .error e => .error e
  | .ok none => .error ()
  | .ok (some d) => .ok d

theorem singleton_prefix_iff (x : Nat) (l : JStr) : [x] <+: l ↔ l.head? = some x := by
  cases l with
  | nil => simp
  | cons a t =>
    constructor
    · intro h
      rcases h with ⟨u, hu⟩
      injection hu with h1 h2
      subst h1
      rfl
    · intro h
      injection h with h1
      subst h1
      exact ⟨t, rfl⟩

/-- The two inner variable loops agree: `part_000` throws exactly where
`src/src` returns `false`, and both store the same decoded values. -/
theorem parseVars_relation (opts : OperatorProfile) :
    ∀ (vars : List Var) (vals : List JStr) (data : VarMap),
      parseVarsB opts vars vals data = resA2B (parseVarsA opts vars vals data) := by
  intro vars
  induction vars with
  | nil => intro vals data; rfl
  | cons v vs ih =>
    intro vals data
    cases vals with
    | nil => rfl
    | cons val rest =>
      have hrel : ∀ (t : JStr),
          (match decodeURIComponent t with
           | .error e => .error e
           | .ok dec => parseVarsB opts vs rest (objSet data v.name dec)) =
          resA2B (match decodeURIComponent t with
           | .error e => .error e
           | .ok dec => parseVarsA opts vs rest (objSet data v.name dec)) := by
        intro t
        cases decodeURIComponent t with
        | error e => rfl
        | ok dec => exact ih rest (objSet data v.name dec)
      simp only [parseVarsA, parseVarsB, singleton_prefix_iff]
      split_ifs <;> first | rfl | exact hrel _

/-- The two per-piece loops agree under the `resA2B` correspondence. -/
theorem parsePieces_relation (s : JStr) :
    ∀ (ps : List Piece) (gs : List JStr) (os : List Nat) (data : VarMap),
      parsePiecesB s ps gs os data = resA2B (parsePiecesA s ps gs os data) := by
  intro ps
  induction ps with
  | nil => intro gs os data; rfl
  | cons pc pt ih =>
    intro gs os data
    cases gs with
    | nil => rfl
    | cons g gt =>
      cases os with
      | nil => rfl
      | cons o1 ot =>
        cases ot with
        | nil => rfl
        | cons o2 ot' =>
          simp only [parsePiecesA, parsePiecesB, getValuePart]
          split_ifs with h1 h2
          · exact ih gt (o2 :: ot') data
          · rw [parseVars_relation]
            cases parseVarsA (operatorOptions pc.operator) pc.vars
                (jsSplit (operatorOptions pc.operator).sep
                  ((jsSubstring s (o1 + g.length) o2).drop
                    (operatorOptions pc.operator).pre.length)) data with
            | error e => rfl
            | ok o =>
              cases o with
              | none => rfl
              | some data' => exact ih gt (o2 :: ot') data'
          · rfl

/-- C9 amended: the two extraction implementations agree whenever the
`src/src` parse returns normally (same mapping, or both the failure value
`false`); when it throws (a malformed percent-escape), `src/src`
propagates the exception while `part_000` returns `false`. -/
theorem c9_amended_parse_agreement (glues : List JStr) (pieces : List Piece) (s : JStr) :
    parseBPub glues pieces s =
      (match parse glues pieces s with
       | .error _ => none
       | .ok o => o) := by
  cases ho : getSegmentsOffsets s glues with
  | none =>
    unfold parseBPub parseBRun parse getSegmentsOffsetsThrow
    rw [ho]
  | some offsets =>
    unfold parseBPub parseBRun parse getSegmentsOffsetsThrow
    rw [ho]
    show (match parsePiecesB s pieces glues offsets [] with
          | .ok d => some d
          | .error _ => none) =
        (match parsePiecesA s pieces glues offsets [] with
          | .error _ => none
          | .ok o => o)
    rw [parsePieces_relation]
    cases parsePiecesA s pieces glues offsets [] with
    | error e => rfl
    | ok o =>
      cases o with
      | none => rfl
      | some d => rfl

/-- C9 counterexample: on the compiled template `"{x}"` and candidate
`"%"`, the `src/src` parse throws (`.error`) while the `part_000` public
parse returns the failure value `false` (`none`): they do not return the
same result. -/
theorem c9_counterexample :
    parse [[], []] [⟨.plain, [⟨jstr ("x"), none, false⟩]⟩] (jstr ("%")) = .error () ∧
    parseBPub [[], []] [⟨.plain, [⟨jstr ("x"), none, false⟩]⟩] (jstr ("%")) = none := by
  decide

theorem matchesAt_span (s pat : JStr) (a : Nat) (h : matchesAt s pat a = true)
    (ha : a ≤ s.length) : a + pat.length ≤ s.length := by
  unfold matchesAt at h
  rw [decide_eq_true_eq] at h
  have := h.length_le
  rw [List.length_drop] at this
  omega

theorem matchesAt_append_left (c t pat : JStr) (a : Nat)
    (h : matchesAt c pat a = true) : matchesAt (c ++ t) pat a = true := by
  unfold matchesAt at h ⊢
  rw [decide_eq_true_eq] at h ⊢
  rw [List.drop_append_eq_append_drop]
  exact h.trans (List.prefix_append _ _)

theorem matchesAt_append_rev (c t pat : JStr) (r : Nat)
    (hr : r + pat.length ≤ c.length)
    (h : matchesAt (c ++ t) pat r = true) : matchesAt c pat r = true := by
  unfold matchesAt at h ⊢
  rw [decide_eq_true_eq] at h ⊢
  rw [List.drop_append_eq_append_drop] at h
  rw [List.prefix_iff_eq_take] at h ⊢
  rw [h, List.take_append_eq_append_take]
  have hlen : pat.length ≤ (c.drop r).length := by
    rw [List.length_drop]
    omega
  rw [Nat.sub_eq_zero_of_le hlen, List.take_zero, List.append_nil,
    List.length_take, Nat.min_eq_left hlen]

theorem jsIndexOf_append (c t g : JStr) (cur a : Nat)
    (hcur : cur ≤ c.length) (h : jsIndexOf c g cur = some a) :
    jsIndexOf (c ++ t) g cur = some a := by
  rw [jsIndexOf_eq_some_iff] at h ⊢
  obtain ⟨h1, h2, h3, h4⟩ := h
  rw [Nat.min_eq_left hcur] at h1 h4
  have hspan : a + g.length ≤ c.length := matchesAt_span c g a h3 h2
  have hcl : cur ≤ (c ++ t).length := by
    rw [List.length_append]
    omega
  rw [Nat.min_eq_left hcl]
  refine ⟨h1, by rw [List.length_append]; omega, matchesAt_append_left c t g a h3, ?_⟩
  intro r hr1 hr2
  cases hb : matchesAt (c ++ t) g r with
  | false => rfl
  | true =>
    have : matchesAt c g r = true := matchesAt_append_rev c t g r (by omega) hb
    rw [h4 r hr1 hr2] at this
    exact Bool.noConfusion this

/-- Searching a non-empty glue from a cursor at the end of the string
always fails, so an anchoring pass that still contains a non-empty glue
cannot succeed from there. -/
theorem segOffsetsGo_fail_after_end (c : JStr) :
    ∀ (glues : List JStr), (∃ g ∈ glues, g ≠ []) →
      ∀ res, ¬ segOffsetsGo c glues c.length false = some res := by
  intro glues
  induction glues with
  | nil =>
    rintro ⟨g, hg, _⟩ res
    exact absurd hg (List.not_mem_nil g)
  | cons g gs ih =>
    rintro ⟨g', hg', hne⟩ res h
    by_cases hg : g = []
    · subst hg
      rw [segOffsetsGo_cons_some c [] gs c.length false c.length (by simp)] at h
      cases hrec : segOffsetsGo c gs (c.length + List.length ([] : JStr)) false with
      | none => rw [hrec] at h; exact Option.noConfusion h
      | some rest =>
        have hgs : g' ∈ gs := by
          rcases List.mem_cons.mp hg' with rfl | hmem
          · exact absurd rfl hne
          · exact hmem
        exact ih ⟨g', hgs, hne⟩ rest (by simpa using hrec)
    · have hnone : jsIndexOf c g c.length = none := by
        rw [jsIndexOf_eq_none_iff]
        intro r hr1 hr2
        have hr : r = c.length := by
          rw [Nat.min_eq_left (Nat.le_refl _)] at hr1
          omega
        subst hr
        unfold matchesAt
        rw [decide_eq_false_iff_not]
        intro hpre
        rw [List.drop_eq_nil_of_le (Nat.le_refl _)] at hpre
        exact hg (List.prefix_nil.mp hpre)
      rw [segOffsetsGo_cons_none c g gs c.length false
        (by rw [if_neg (fun hc => hg hc.2), hnone])] at h
      exact Option.noConfusion h

/-- If the anchor pass succeeds (from a non-first position) and the last
glue is non-empty, then every glue in the remainder is non-empty. -/
theorem segOffsetsGo_noEmpty (c : JStr) :
    ∀ (glues : List JStr) (cur : Nat) (offs : List Nat),
      glues.getLast? ≠ some [] →
      segOffsetsGo c glues cur false = some offs →
      ∀ g ∈ glues, g ≠ [] := by
  intro glues
  induction glues with
  | nil => intro cur offs _ _ g hg; exact absurd hg (List.not_mem_nil g)
  | cons g gs ih =>
    intro cur offs hlast h g' hg'
    by_cases hg : g = []
    · subst hg
      cases gs with
      | nil => exact absurd hlast (by simp)
      | cons g2 gt =>
        rw [segOffsetsGo_cons_some c [] (g2 :: gt) cur false c.length (by simp)] at h
        cases hrec : segOffsetsGo c (g2 :: gt) (c.length + List.length ([] : JStr)) false with
        | none => rw [hrec] at h; exact Option.noConfusion h
        | some rest =>
          have hlast' : (g2 :: gt).getLast? ≠ some [] := by
            rwa [List.getLast?_cons_cons] at hlast
          have hnonempty : ∀ x ∈ g2 :: gt, x ≠ [] :=
            ih (c.length + List.length ([] : JStr)) rest hlast' hrec
          have hany : ∃ x ∈ g2 :: gt, x ≠ [] :=
            ⟨g2, List.mem_cons_self g2 gt, hnonempty g2 (List.mem_cons_self g2 gt)⟩
          exact absurd (by simpa using hrec)
            (segOffsetsGo_fail_after_end c (g2 :: gt) hany rest)
    · rcases List.mem_cons.mp hg' with rfl | hmem
      · exact hg
      · cases hidx : jsIndexOf c g cur with
        | none =>
          rw [segOffsetsGo_cons_none c g gs cur false
            (by rw [if_neg (fun hc => hg hc.2), hidx])] at h
          exact Option.noConfusion h
        | some a =>
          rw [segOffsetsGo_cons_some c g gs cur false a
            (by rw [if_neg (fun hc => hg hc.2), hidx])] at h
          cases hrec : segOffsetsGo c gs (a + g.length) false with
          | none => rw [hrec] at h; exact Option.noConfusion h
          | some rest =>
            have hlast' : gs.getLast? ≠ some [] := by
              cases gs with
              | nil => exact absurd hmem (List.not_mem_nil g')
              | cons g2 gt => rwa [List.getLast?_cons_cons] at hlast
            exact ih (a + g.length) rest hlast' hrec g' hmem

/-- A successful anchoring pass over non-empty glues is unchanged by text
appended after the end of the string. -/
theorem segOffsetsGo_append_of_nonempty (c t : JStr) :
    ∀ (glues : List JStr) (cur : Nat) (offs : List Nat),
      (∀ g ∈ glues, g ≠ []) → cur ≤ c.length →
      segOffsetsGo c glues cur false = some offs →
      segOffsetsGo (c ++ t) glues cur false = some offs := by
  intro glues
  induction glues with
  | nil => intro cur offs _ _ h; exact h
  | cons g gs ih =>
    intro cur offs hne hcur h
    have hg : g ≠ [] := hne g (List.mem_cons_self g gs)
    cases hidx : jsIndexOf c g cur with
    | none =>
      rw [segOffsetsGo_cons_none c g gs cur false
        (by rw [if_neg (fun hc => hg hc.2), hidx])] at h
      exact Option.noConfusion h
    | some a =>
      rw [segOffsetsGo_cons_some c g gs cur false a
        (by rw [if_neg (fun hc => hg hc.2), hidx])] at h
      have hidx' := jsIndexOf_append c t g cur a hcur hidx
      have hspec := (jsIndexOf_eq_some_iff c g cur a).mp hidx
      have ha : a ≤ c.length := hspec.2.1
      have hspan : a + g.length ≤ c.length := matchesAt_span c g a hspec.2.2.1 ha
      rw [segOffsetsGo_cons_some (c ++ t) g gs cur false a
        (by rw [if_neg (fun hc => hg hc.2), hidx'])]
      cases hrec : segOffsetsGo c gs (a + g.length) false with
      | none => rw [hrec] at h; exact Option.noConfusion h
      | some rest =>
        rw [hrec] at h
        rw [ih (a + g.length) rest (fun x hx => hne x (List.mem_cons_of_mem g hx))
          (by omega) hrec]
        exact h

/-- Every recorded anchor lies within the string. -/
theorem segOffsetsGo_mem_le (c : JStr) :
    ∀ (glues : List JStr) (cur : Nat) (first : Bool) (offs : List Nat),
      segOffsetsGo c glues cur first = some offs → ∀ o ∈ offs, o ≤ c.length := by
  intro glues
  induction glues with
  | nil =>
    intro cur first offs h o ho
    simp only [segOffsetsGo] at h
    injection h with h'
    rw [← h'] at ho
    exact absurd ho (List.not_mem_nil o)
  | cons g gs ih =>
    intro cur first offs h o ho
    by_cases hf : first = false ∧ g = []
    · rw [segOffsetsGo_cons_some c g gs cur first c.length (by rw [if_pos hf])] at h
      cases hrec : segOffsetsGo c gs (c.length + g.length) false with
      | none => rw [hrec] at h; exact Option.noConfusion h
      | some rest =>
        rw [hrec] at h
        injection h with h'
        rw [← h'] at ho
        rcases List.mem_cons.mp ho with rfl | hmem
        · exact Nat.le_refl _
        · exact ih (c.length + g.length) false rest hrec o hmem
    · cases hidx : jsIndexOf c g cur with
      | none =>
        rw [segOffsetsGo_cons_none c g gs cur first (by rw [if_neg hf, hidx])] at h
        exact Option.noConfusion h
      | some a =>
        rw [segOffsetsGo_cons_some c g gs cur first a (by rw [if_neg hf, hidx])] at h
        cases hrec : segOffsetsGo c gs (a + g.length) false with
        | none => rw [hrec] at h; exact Option.noConfusion h
        | some rest =>
          rw [hrec] at h
          injection h with h'
          rw [← h'] at ho
          rcases List.mem_cons.mp ho with rfl | hmem
          · exact ((jsIndexOf_eq_some_iff c g cur o).mp hidx).2.1
          · exact ih (a + g.length) false rest hrec o hmem

/-- Pairwise bound: each anchor plus its glue's length stays within the
string. -/
def OffsBound (cLen : Nat) : List JStr → List Nat → Prop
  | g :: gs, o :: os => o + g.length ≤ cLen ∧ OffsBound cLen gs os
  | _, _ => True

theorem segOffsetsGo_offsBound (c : JStr) :
    ∀ (glues : List JStr) (cur : Nat) (first : Bool) (offs : List Nat),
      segOffsetsGo c glues cur first = some offs → OffsBound c.length glues offs := by
  intro glues
  induction glues with
  | nil =>
    intro cur first offs h
    simp only [segOffsetsGo] at h
    injection h with h'
    rw [← h']
    trivial
  | cons g gs ih =>
    intro cur first offs h
    by_cases hf : first = false ∧ g = []
    · rw [segOffsetsGo_cons_some c g gs cur first c.length (by rw [if_pos hf])] at h
      cases hrec : segOffsetsGo c gs (c.length + g.length) false with
      | none => rw [hrec] at h; exact Option.noConfusion h
      | some rest =>
        rw [hrec] at h
        injection h with h'
        rw [← h']
        exact ⟨by rw [hf.2]; simp, ih (c.length + g.length) false rest hrec⟩
    · cases hidx : jsIndexOf c g cur with
      | none =>
        rw [segOffsetsGo_cons_none c g gs cur first (by rw [if_neg hf, hidx])] at h
        exact Option.noConfusion h
      | some a =>
        rw [segOffsetsGo_cons_some c g gs cur first a (by rw [if_neg hf, hidx])] at h
        cases hrec : segOffsetsGo c gs (a + g.length) false with
        | none => rw [hrec] at h; exact Option.noConfusion h
        | some rest =>
          rw [hrec] at h
          injection h with h'
          rw [← h']
          have hspec := (jsIndexOf_eq_some_iff c g cur a).mp hidx
          exact ⟨matchesAt_span c g a hspec.2.2.1 hspec.2.1,
            ih (a + g.length) false rest hrec⟩

theorem jsSubstring_append (c t : JStr) (a b : Nat)
    (ha : a ≤ c.length) (hb : b ≤ c.length) :
    jsSubstring (c ++ t) a b = jsSubstring c a b := by
  show ((c ++ t).take (max (min a (c ++ t).length) (min b (c ++ t).length))).drop
      (min (min a (c ++ t).length) (min b (c ++ t).length)) =
    (c.take (max (min a c.length) (min b c.length))).drop
      (min (min a c.length) (min b c.length))
  have h1 : min a (c ++ t).length = a := by rw [List.length_append]; omega
  have h2 : min b (c ++ t).length = b := by rw [List.length_append]; omega
  rw [h1, h2, Nat.min_eq_left ha, Nat.min_eq_left hb,
    List.take_append_eq_append_take,
    Nat.sub_eq_zero_of_le (by omega : max a b ≤ c.length), List.take_zero,
    List.append_nil]

/-- The per-piece extraction loop only reads the string through
`jsSubstring` at in-range offsets, so trailing text changes nothing. -/
theorem parsePiecesA_ext (c t : JStr) :
    ∀ (ps : List Piece) (gs : List JStr) (os : List Nat) (data : VarMap),
      OffsBound c.length gs os → (∀ o ∈ os, o ≤ c.length) →
      parsePiecesA (c ++ t) ps gs os data = parsePiecesA c ps gs os data := by
  intro ps
  induction ps with
  | nil => intro gs os data _ _; rfl
  | cons pc pt ih =>
    intro gs os data hb hm
    cases gs with
    | nil => rfl
    | cons g gt =>
      cases os with
      | nil => rfl
      | cons o1 ot =>
        cases ot with
        | nil => rfl
        | cons o2 ot' =>
          have h1 : o1 + g.length ≤ c.length := hb.1
          have h2 : o2 ≤ c.length := hm o2 (List.mem_cons_of_mem o1 (List.mem_cons_self o2 ot'))
          have hsub := jsSubstring_append c t (o1 + g.length) o2 h1 h2
          have hb' : OffsBound c.length gt (o2 :: ot') := hb.2
          have hm' : ∀ o ∈ o2 :: ot', o ≤ c.length :=
            fun o ho => hm o (List.mem_cons_of_mem o1 ho)
          simp only [parsePiecesA, hsub]
          split_ifs with hc1 hc2
          · exact ih gt (o2 :: ot') data hb' hm'
          · cases parseVarsA (operatorOptions pc.operator) pc.vars
                (jsSplit (operatorOptions pc.operator).sep
                  ((jsSubstring c (o1 + g.length) o2).drop
                    (operatorOptions pc.operator).pre.length)) data with
            | error e => rfl
            | ok o =>
              cases o with
              | none => rfl
              | some data' => exact ih gt (o2 :: ot') data' hb' hm'
          · rfl

/-- A successful boundary-recovery pass with a non-empty final glue is
unchanged by appending trailing text. -/
theorem getSegmentsOffsets_append (c t : JStr) (glues : List JStr) (offs : List Nat)
    (hlast : glues.getLast? ≠ some [])
    (h : getSegmentsOffsets c glues = some offs) :
    getSegmentsOffsets (c ++ t) glues = some offs := by
  unfold getSegmentsOffsets at h ⊢
  cases glues with
  | nil => exact h
  | cons g gs =>
    cases hidx : jsIndexOf c g 0 with
    | none =>
      rw [segOffsetsGo_cons_none c g gs 0 true (by rw [if_neg (by simp), hidx])] at h
      exact Option.noConfusion h
    | some a =>
      rw [segOffsetsGo_cons_some c g gs 0 true a (by rw [if_neg (by simp), hidx])] at h
      have hspec := (jsIndexOf_eq_some_iff c g 0 a).mp hidx
      have ha : a ≤ c.length := hspec.2.1
      have hspan : a + g.length ≤ c.length := matchesAt_span c g a hspec.2.2.1 ha
      have hidx' := jsIndexOf_append c t g 0 a (Nat.zero_le _) hidx
      rw [segOffsetsGo_cons_some (c ++ t) g gs 0 true a (by rw [if_neg (by simp), hidx'])]
      cases hrec : segOffsetsGo c gs (a + g.length) false with
      | none => rw [hrec] at h; exact Option.noConfusion h
      | some rest =>
        rw [hrec] at h
        have hlast' : gs.getLast? ≠ some [] := by
          cases gs with
          | nil => intro hc; exact Option.noConfusion hc
          | cons g2 gt => rwa [List.getLast?_cons_cons] at hlast
        have hne := segOffsetsGo_noEmpty c gs (a + g.length) rest hlast' hrec
        rw [segOffsetsGo_append_of_nonempty c t gs (a + g.length) rest hne (by omega) hrec]
        exact h

/-- C10: extraction ignores text after the final glue's matched
occurrence: when the final glue is non-empty and extraction succeeds on
`c`, it returns the same mapping on `c ++ t` for any suffix `t`. -/
theorem c10_trailing_text_ignored (glues : List JStr) (pieces : List Piece)
    (c t : JStr) (m : VarMap)
    (hlast : glues.getLast? ≠ some [])
    (h : parse glues pieces c = .ok (some m)) :
    parse glues pieces (c ++ t) = .ok (some m) := by
  unfold parse at h ⊢
  cases ho : getSegmentsOffsets c glues with
  | none =>
    rw [ho] at h
    injection h with h'
    exact Option.noConfusion h'
  | some offs =>
    rw [ho] at h
    rw [getSegmentsOffsets_append c t glues offs hlast ho]
    have hbound := segOffsetsGo_offsBound c glues 0 true offs ho
    have hmem := segOffsetsGo_mem_le c glues 0 true offs ho
    show parsePiecesA (c ++ t) pieces glues offs [] = Except.ok (some m)
    rw [parsePiecesA_ext c t pieces glues offs [] hbound hmem]
    exact h

/-- Witness for C10 on the template `"/{x}/"`, candidate `"/a/"` and
suffix `"zz"`. -/
theorem c10_trailing_text_ignored_witness :
    parse [jstr ("/"), jstr ("/")] [⟨.plain, [⟨jstr ("x"), none, false⟩]⟩]
      (jstr ("/a/") ++ jstr ("zz")) = .ok (some [(jstr ("x"), jstr ("a"))]) :=
  c10_trailing_text_ignored [jstr ("/"), jstr ("/")]
    [⟨.plain, [⟨jstr ("x"), none, false⟩]⟩] (jstr ("/a/")) (jstr ("zz"))
    [(jstr ("x"), jstr ("a"))] (by decide) (by decide)

/-- A value character that survives the round trip: an ASCII code point
at or above 0x10 (the strict encoder's unpadded escapes are only
decodable there) and below 0x80 (a single UTF-8 byte). -/
def SafeCharB (c : Nat) : Bool := decide (0x10 ≤ c) && decide (c < 0x80)

/-- Per-operator restriction on value characters: under `.` the value may
not contain the separator `.` itself, which both encoders pass through. -/
def valCharOK (op : Op) (c : Nat) : Bool :=
  SafeCharB c && (if op = Op.dot then decide (c ≠ 0x2E) else true)

/-- Round-trippable variable value: absent, or a non-empty string of
per-operator safe characters. -/
def valOKb (op : Op) : JSValue → Bool
  | .undef => true
  | .str s => decide (s ≠ []) && s.all (valCharOK op)
  | _ => false

/-- The variable is defined in the mapping. -/
def defdB (V : List (JStr × JSValue)) (vr : Var) : Bool :=
  isDefined (jsLookup V vr.name)

/-- The string value of a variable (defined variables hold strings under
the round-trip hypotheses). -/
def strValOf (V : List (JStr × JSValue)) (vr : Var) : JStr :=
  match jsLookup V vr.name with
  | .str s => s
  | _ => []

/-- Character-wise encoding of a safe character by each encoder. -/
def encCharSpec : EncMode → Nat → JStr
  | .strict, c => percentTransform c
  | .uriComp, c => if isComponentUnescaped c then [c] else percentCU :: byteToHex2 c
  | .uriFull, c => if isUriUnescaped c then [c] else percentCU :: byteToHex2 c

/-- Character-wise encoding of a whole (safe, ASCII) string. -/
def encStr (m : EncMode) (s : JStr) : JStr := (s.map (encCharSpec m)).flatten

/-- What expansion emits for one defined scalar variable. -/
def renderVarSpec (opts : OperatorProfile) (s : JStr) (vr : Var) : JStr :=
  if opts.assignment then vr.name ++ equalsCU :: encStr opts.encode s
  else encStr opts.encode s

/-- What expansion emits for one expression: nothing when no variable is
defined, otherwise the prefix and the separator-joined renderings. -/
def renderPieceSpec (V : List (JStr × JSValue)) (pc : Piece) : JStr :=
  let opts := operatorOptions pc.operator
  let ds := pc.vars.filter (defdB V)
  if ds = [] then []
  else opts.pre ++ joinSep opts.sep (ds.map (fun vr => renderVarSpec opts (strValOf V vr) vr))

/-- Concatenate per-piece outputs with their following glues. -/
def catPieces : List JStr → List JStr → JStr
  | o :: os, g :: gs => o ++ g ++ catPieces os gs
  | _, _ => []

/-- The mapping extraction is expected to recover: the defined variables
in template order with their string values. -/
def expectedData (V : List (JStr × JSValue)) (pieces : List Piece) : VarMap :=
  (pieces.map (fun pc =>
    (pc.vars.filter (defdB V)).map (fun vr => (vr.name, strValOf V vr)))).flatten

/-- All variable names of a template, in order. -/
def namesOf (pieces : List Piece) : List JStr :=
  (pieces.map (fun pc => pc.vars.map (fun vr => vr.name))).flatten

/-- The operators whose expansions are recoverable (no `+`/`#`). -/
def nonLossyOps : List Op := [.plain, .dot, .slash, .semi, .quest, .amp]

/-- Every glue except possibly the last is non-empty. -/
def interiorNonempty : List JStr → Bool
  | [] => true
  | [_] => true
  | g :: rest => decide (g ≠ []) && interiorNonempty rest

/-- The following glue's text never occurs inside a rendered expression
output earlier than its real position (the anchor-ambiguity side
condition of the spec). -/
def glueSafeB (V : List (JStr × JSValue)) : List Piece → List JStr → Bool
  | pc :: ps, g :: gs =>
    (decide (g = []) ||
      (List.range (renderPieceSpec V pc).length).all
        (fun p => !(matchesAt (renderPieceSpec V pc ++ g) g p))) && glueSafeB V ps gs
  | _, _ => true

theorem percentTransform_pass {c : Nat} (hc : isStrictUnescaped c = true) :
    percentTransform c = [c] := by
  have hc' := hc
  simp only [isStrictUnescaped, isDigitCU, isUpperCU, isLowerCU, isUnreservedPunct,
    Bool.or_eq_true, Bool.and_eq_true, decide_eq_true_eq] at hc'
  unfold percentTransform
  split_ifs with h1 h2 h3 h4
  · rfl
  · rfl
  · rfl
  · rfl
  · exfalso
    simp only [isUnreservedPunct, Bool.or_eq_true, decide_eq_true_eq] at h4
    omega

theorem percentTransform_esc {c : Nat} (hc : isStrictUnescaped c = false) :
    percentTransform c = percentCU :: jsToUpperCase (jsToStringHex c) := by
  have hc' : ¬ isStrictUnescaped c = true := by rw [hc]; exact Bool.false_ne_true
  simp only [isStrictUnescaped, isDigitCU, isUpperCU, isLowerCU, isUnreservedPunct,
    Bool.or_eq_true, Bool.and_eq_true, decide_eq_true_eq, not_or] at hc'
  unfold percentTransform
  split_ifs with h1 h2 h3 h4
  · exfalso; omega
  · exfalso; omega
  · exfalso; omega
  · exfalso
    simp only [isUnreservedPunct, Bool.or_eq_true, decide_eq_true_eq] at h4
    omega
  · rfl

theorem hexDigitsGo_small (n fuel : Nat) (h : n < 16) (hf : 0 < fuel) :
    hexDigitsGo n fuel = [hexCharLower n] := by
  cases fuel with
  | zero => omega
  | succ f => simp [hexDigitsGo, if_pos h]

theorem jsToStringHex_two (c : Nat) (h1 : 16 ≤ c) (h2 : c < 256) :
    jsToStringHex c = [hexCharLower (c / 16), hexCharLower (c % 16)] := by
  unfold jsToStringHex
  simp only [hexDigitsGo, if_neg (by omega : ¬ c < 16)]
  rw [hexDigitsGo_small (c / 16) c (by omega) (by omega)]
  rfl

theorem hexVal_ucLower (d : Nat) (h : d < 16) :
    hexVal (if isLowerCU (hexCharLower d) then hexCharLower d - 0x20
      else hexCharLower d) = some d := by
  interval_cases d <;> decide

theorem hexVal_upperChar (d : Nat) (h : d < 16) : hexVal (hexCharUpper d) = some d := by
  interval_cases d <;> decide


theorem readEsc_len {rest : JStr} {b : Nat} {rest2 : JStr}
    (h : readEsc rest = some (b, rest2)) : rest.length = rest2.length + 2 := by
  cases rest with
  | nil => simp [readEsc] at h
  | cons h1 t =>
    cases t with
    | nil => simp [readEsc] at h
    | cons h2 r =>
      cases hv1 : hexVal h1 with
      | none => simp [readEsc, hv1] at h
      | some a =>
        cases hv2 : hexVal h2 with
        | none => simp [readEsc, hv1, hv2] at h
        | some b' =>
          simp only [readEsc, hv1, hv2, Option.some.injEq, Prod.mk.injEq] at h
          obtain ⟨hb, hr⟩ := h
          rw [← hr]
          simp

theorem readEscCont_len {s : JStr} {b : Nat} {rest : JStr}
    (h : readEscCont s = some (b, rest)) : s.length = rest.length + 3 := by
  unfold readEscCont at h
  cases s with
  | nil => simp at h
  | cons p t =>
    cases t with
    | nil => simp at h
    | cons x t2 =>
      cases t2 with
      | nil => simp at h
      | cons y r =>
        cases he : escByteVal p x y with
        | none => simp [he] at h
        | some v =>
          simp only [he] at h
          split_ifs at h
          · simp only [Option.some.injEq, Prod.mk.injEq] at h
            obtain ⟨hb, hr⟩ := h
            rw [← hr]
            simp

theorem decodeOne_len {b : Nat} {rest2 : JStr} {units : List Nat} {rest' : JStr}
    (h : decodeOne b rest2 = some (units, rest')) : rest'.length ≤ rest2.length := by
  unfold decodeOne at h
  split_ifs at h with h1 h2 h3 h4
  · simp only [Option.some.injEq, Prod.mk.injEq] at h
    obtain ⟨hu, hr⟩ := h
    rw [← hr]
  · cases hc : readEscCont rest2 with
    | none => simp only [hc] at h; exact Option.noConfusion h
    | some pr =>
      obtain ⟨b1, r⟩ := pr
      simp only [hc, Option.some.injEq, Prod.mk.injEq] at h
      obtain ⟨hu, hr⟩ := h
      rw [← hr]
      have := readEscCont_len hc
      omega
  · cases hc : readEscCont rest2 with
    | none => simp only [hc] at h; exact Option.noConfusion h
    | some pr =>
      obtain ⟨b1, r1⟩ := pr
      simp only [hc] at h
      cases hc2 : readEscCont r1 with
      | none => simp only [hc2] at h; exact Option.noConfusion h
      | some pr2 =>
        obtain ⟨b2, r2⟩ := pr2
        simp only [hc2] at h
        split_ifs at h
        simp only [Option.some.injEq, Prod.mk.injEq] at h
        obtain ⟨hu, hr⟩ := h
        rw [← hr]
        have ha := readEscCont_len hc
        have hb2 := readEscCont_len hc2
        omega
  · cases hc : readEscCont rest2 with
    | none => simp only [hc] at h; exact Option.noConfusion h
    | some pr =>
      obtain ⟨b1, r1⟩ := pr
      simp only [hc] at h
      cases hc2 : readEscCont r1 with
      | none => simp only [hc2] at h; exact Option.noConfusion h
      | some pr2 =>
        obtain ⟨b2, r2⟩ := pr2
        simp only [hc2] at h
        cases hc3 : readEscCont r2 with
        | none => simp only [hc3] at h; exact Option.noConfusion h
        | some pr3 =>
          obtain ⟨b3, r3⟩ := pr3
          simp only [hc3] at h
          split_ifs at h
          simp only [Option.some.injEq, Prod.mk.injEq] at h
          obtain ⟨hu, hr⟩ := h
          rw [← hr]
          have ha := readEscCont_len hc
          have hb2 := readEscCont_len hc2
          have hd := readEscCont_len hc3
          omega

/-- The decode scan does not depend on the fuel, provided there is enough
of it. -/
theorem decodeGo_fuel : ∀ (n : Nat) (s : JStr), s.length ≤ n →
    ∀ (f1 f2 : Nat), s.length < f1 → s.length < f2 → decodeGo f1 s = decodeGo f2 s := by
  intro n
  induction n with
  | zero =>
    intro s hs f1 f2 h1 h2
    have hnil : s = [] := List.eq_nil_of_length_eq_zero (by omega)
    subst hnil
    cases f1 <;> cases f2 <;> rfl
  | succ m ih =>
    intro s hs f1 f2 h1 h2
    cases s with
    | nil => cases f1 <;> cases f2 <;> rfl
    | cons c rest =>
      simp only [List.length_cons] at hs h1 h2
      cases f1 with
      | zero => omega
      | succ g1 =>
        cases f2 with
        | zero => omega
        | succ g2 =>
          by_cases hc : c = percentCU
          · subst hc
            simp only [decodeGo, if_pos rfl, if_true]
            cases hre : readEsc rest with
            | none => simp only [hre]
            | some pr =>
              obtain ⟨b, rest2⟩ := pr
              simp only [hre]
              cases hdo : decodeOne b rest2 with
              | none => simp only [hdo]
              | some pr2 =>
                obtain ⟨units, rest'⟩ := pr2
                simp only [hdo]
                have hl1 := readEsc_len hre
                have hl2 := decodeOne_len hdo
                rw [ih rest' (by omega) g1 g2 (by omega) (by omega)]
          · simp only [decodeGo, if_neg hc]
            rw [ih rest (by omega) g1 g2 (by omega) (by omega)]

theorem decodeGo_eq_decode (f : Nat) (s : JStr) (h : s.length < f) :
    decodeGo f s = decodeURIComponent s := by
  unfold decodeURIComponent
  exact decodeGo_fuel s.length s (Nat.le_refl _) f (s.length + 1) h (Nat.lt_succ_self _)

theorem decode_cons_plain (c : Nat) (hc : ¬ c = percentCU) (r : JStr) :
    decodeURIComponent (c :: r) =
      (match decodeURIComponent r with
       | .ok d => .ok (c :: d)
       | .error e => .error e) := by
  show decodeGo ((c :: r).length + 1) (c :: r) = _
  simp only [List.length_cons, decodeGo, if_neg hc]
  rw [decodeGo_eq_decode (r.length + 1) r (Nat.lt_succ_self _)]

theorem decode_esc_byte (h1 h2 a b : Nat)
    (hh1 : hexVal h1 = some a) (hh2 : hexVal h2 = some b)
    (hb : 16 * a + b < 0x80) (r : JStr) :
    decodeURIComponent (percentCU :: h1 :: h2 :: r) =
      (match decodeURIComponent r with
       | .ok d => .ok ((16 * a + b) :: d)
       | .error e => .error e) := by
  show decodeGo ((percentCU :: h1 :: h2 :: r).length + 1) _ = _
  have hre : readEsc (h1 :: h2 :: r) = some (16 * a + b, r) := by
    simp only [readEsc, hh1, hh2]
  have hdo : decodeOne (16 * a + b) r = some ([16 * a + b], r) := by
    unfold decodeOne
    rw [if_pos hb]
  simp only [List.length_cons, decodeGo, if_pos rfl, hre, hdo]
  rw [decodeGo_eq_decode (r.length + 1 + 1 + 1) r (by omega)]
  cases decodeURIComponent r with
  | ok d => rfl
  | error e => rfl
theorem decode_step_strict (c : Nat) (hc1 : 0x10 ≤ c) (hc2 : c < 0x80) (r : JStr) :
    decodeURIComponent (percentTransform c ++ r) =
      (match decodeURIComponent r with
       | .ok d => .ok (c :: d)
       | .error e => .error e) := by
  by_cases hp : isStrictUnescaped c = true
  · rw [percentTransform_pass hp]
    have hne : ¬ c = percentCU := by
      intro h
      subst h
      exact absurd hp (by decide)
    exact decode_cons_plain c hne r
  · rw [percentTransform_esc (Bool.eq_false_iff.mpr hp)]
    rw [jsToStringHex_two c (by omega) (by omega)]
    have hdiv : c / 16 < 16 := by omega
    have hmod : c % 16 < 16 := by omega
    show decodeURIComponent (percentCU ::
      (if isLowerCU (hexCharLower (c / 16)) then hexCharLower (c / 16) - 0x20
        else hexCharLower (c / 16)) ::
      (if isLowerCU (hexCharLower (c % 16)) then hexCharLower (c % 16) - 0x20
        else hexCharLower (c % 16)) :: r) = _
    rw [decode_esc_byte _ _ (c / 16) (c % 16) (hexVal_ucLower (c / 16) hdiv)
      (hexVal_ucLower (c % 16) hmod) (by omega) r]
    rw [Nat.div_add_mod c 16]

theorem decode_step_comp (c : Nat) (hc1 : 0x10 ≤ c) (hc2 : c < 0x80) (r : JStr) :
    decodeURIComponent (encCharSpec .uriComp c ++ r) =
      (match decodeURIComponent r with
       | .ok d => .ok (c :: d)
       | .error e => .error e) := by
  by_cases hp : isComponentUnescaped c = true
  · simp only [encCharSpec, if_pos hp]
    have hne : ¬ c = percentCU := by
      intro h
      subst h
      exact absurd hp (by decide)
    exact decode_cons_plain c hne r
  · simp only [encCharSpec, if_neg hp]
    have hdiv : c / 16 < 16 := by omega
    have hmod : c % 16 < 16 := by omega
    show decodeURIComponent (percentCU :: hexCharUpper (c / 16) ::
      hexCharUpper (c % 16) :: r) = _
    rw [decode_esc_byte _ _ (c / 16) (c % 16) (hexVal_upperChar (c / 16) hdiv)
      (hexVal_upperChar (c % 16) hmod) (by omega) r]
    rw [Nat.div_add_mod c 16]

theorem encStr_cons (m : EncMode) (c : Nat) (s : JStr) :
    encStr m (c :: s) = encCharSpec m c ++ encStr m s := rfl

/-- Decoding inverts the character-wise encoding on safe strings. -/
theorem decode_encStr (m : EncMode) (hm : m = EncMode.strict ∨ m = EncMode.uriComp) :
    ∀ (s : JStr), (∀ c ∈ s, 0x10 ≤ c ∧ c < 0x80) →
      decodeURIComponent (encStr m s) = .ok s := by
  intro s
  induction s with
  | nil => intro _; rfl
  | cons c rest ih =>
    intro h
    have hc := h c (List.mem_cons_self c rest)
    have hr := ih (fun x hx => h x (List.mem_cons_of_mem c hx))
    rw [encStr_cons]
    rcases hm with rfl | rfl
    · have := decode_step_strict c hc.1 hc.2 (encStr .strict rest)
      rw [show encCharSpec EncMode.strict c = percentTransform c from rfl, this, hr]
    · rw [decode_step_comp c hc.1 hc.2 (encStr .uriComp rest), hr]


theorem mem_of_head? {l : JStr} {c : Nat} (h : l.head? = some c) : c ∈ l := by
  cases l with
  | nil => exact Option.noConfusion h
  | cons a t =>
    simp only [List.head?_cons, Option.some.injEq] at h
    rw [← h]
    exact List.mem_cons_self a t

/-- A match is insensitive to shifting past a common prefix. -/
theorem matchesAt_shift (pre u pat : JStr) (p : Nat) :
    matchesAt (pre ++ u) pat (pre.length + p) = matchesAt u pat p := by
  unfold matchesAt
  rw [List.drop_append_eq_append_drop, List.drop_eq_nil_of_le (by omega),
    Nat.add_sub_cancel_left, List.nil_append]

/-- `substring` between the exact boundaries of a middle segment. -/
theorem jsSubstring_exact (pre o rest : JStr) :
    jsSubstring (pre ++ o ++ rest) pre.length (pre.length + o.length) = o := by
  simp only [jsSubstring]
  have hL : (pre ++ o ++ rest).length = pre.length + o.length + rest.length := by
    simp only [List.length_append]
  rw [hL, Nat.min_eq_left (by omega), Nat.min_eq_left (by omega),
    Nat.max_eq_right (by omega), Nat.min_eq_left (by omega)]
  rw [show pre.length + o.length = (pre ++ o).length by simp, List.take_left,
    List.drop_left]

theorem joinSep_cons_cons (sep x y : JStr) (xs : List JStr) :
    joinSep sep (x :: y :: xs) = x ++ sep ++ joinSep sep (y :: xs) := rfl

/-- A separator-join of non-empty parts is non-empty. -/
theorem joinSep_ne_nil (sep : JStr) (parts : List JStr) (hne : parts ≠ [])
    (hp : ∀ p ∈ parts, p ≠ []) : joinSep sep parts ≠ [] := by
  cases parts with
  | nil => exact absurd rfl hne
  | cons x t =>
    cases t with
    | nil => exact hp x (List.mem_cons_self x [])
    | cons y r =>
      rw [joinSep_cons_cons]
      intro h
      rw [List.append_eq_nil, List.append_eq_nil] at h
      exact hp x (List.mem_cons_self x _) h.1.1

theorem joinSep_length_ge (c : Nat) :
    ∀ (parts : List JStr), parts.length ≤ (joinSep [c] parts).length + 1 := by
  intro parts
  induction parts with
  | nil => simp
  | cons x t ih =>
    cases t with
    | nil => simp [joinSep]
    | cons y r =>
      rw [joinSep_cons_cons]
      simp only [List.length_cons, List.length_append] at ih ⊢
      omega

/-- A single-character separator absent from `x` is not found in `x`. -/
theorem jsIndexOf_no_sep (c : Nat) (x : JStr) (hx : c ∉ x) :
    jsIndexOf x [c] 0 = none := by
  rw [jsIndexOf_eq_none_iff]
  intro r _ _
  cases hm : matchesAt x [c] r with
  | false => rfl
  | true =>
    exfalso
    unfold matchesAt at hm
    rw [decide_eq_true_eq] at hm
    have hc := mem_of_head? (singleton_prefix_iff c _ |>.mp hm)
    exact hx ((List.drop_sublist r x).subset hc)

/-- The first occurrence of a single-character separator after a
separator-free block is right at the block's end. -/
theorem jsIndexOf_first_sep (c : Nat) (x u : JStr) (hx : c ∉ x) :
    jsIndexOf (x ++ c :: u) [c] 0 = some x.length := by
  rw [jsIndexOf_eq_some_iff]
  have hlen : (x ++ c :: u).length = x.length + 1 + u.length := by
    simp only [List.length_append, List.length_cons]
    omega
  refine ⟨by omega, by omega, ?_, ?_⟩
  · unfold matchesAt
    rw [decide_eq_true_eq, List.drop_left, singleton_prefix_iff]
    rfl
  · intro r _ hr
    cases hm : matchesAt (x ++ c :: u) [c] r with
    | false => rfl
    | true =>
      exfalso
      unfold matchesAt at hm
      rw [decide_eq_true_eq] at hm
      have hh := singleton_prefix_iff c _ |>.mp hm
      rw [List.drop_append_eq_append_drop] at hh
      have hxd : x.drop r ≠ [] := by
        intro hnil
        rw [List.drop_eq_nil_iff_le] at hnil
        omega
      rw [head?_append_of_ne_nil hxd] at hh
      exact hx ((List.drop_sublist r x).subset (mem_of_head? hh))

theorem jsSplitGo_single (c : Nat) :
    ∀ (parts : List JStr) (fuel : Nat), parts ≠ [] →
      (∀ p ∈ parts, c ∉ p) → parts.length ≤ fuel + 1 →
      jsSplitGo [c] (joinSep [c] parts) fuel = parts := by
  intro parts
  induction parts with
  | nil => intro fuel h; exact absurd rfl h
  | cons x t ih =>
    intro fuel _ hno hfuel
    cases t with
    | nil =>
      cases fuel with
      | zero => rfl
      | succ f =>
        show (match jsIndexOf x [c] 0 with
          | none => [x]
          | some p => x.take p :: jsSplitGo [c] (x.drop (p + 1)) f) = [x]
        rw [jsIndexOf_no_sep c x (hno x (List.mem_cons_self x []))]
    | cons y r =>
      cases fuel with
      | zero => simp at hfuel
      | succ f =>
        rw [joinSep_cons_cons]
        have hx : c ∉ x := hno x (List.mem_cons_self x _)
        have hJ : x ++ [c] ++ joinSep [c] (y :: r) =
            x ++ c :: joinSep [c] (y :: r) := by simp
        rw [hJ]
        show (match jsIndexOf (x ++ c :: joinSep [c] (y :: r)) [c] 0 with
          | none => [x ++ c :: joinSep [c] (y :: r)]
          | some p => (x ++ c :: joinSep [c] (y :: r)).take p ::
              jsSplitGo [c] ((x ++ c :: joinSep [c] (y :: r)).drop (p + 1)) f) = _
        rw [jsIndexOf_first_sep c x _ hx]
        show (x ++ c :: joinSep [c] (y :: r)).take x.length ::
            jsSplitGo [c] ((x ++ c :: joinSep [c] (y :: r)).drop (x.length + 1)) f =
          x :: y :: r
        rw [List.take_left]
        have hdrop : (x ++ c :: joinSep [c] (y :: r)).drop (x.length + 1) =
            joinSep [c] (y :: r) := by
          rw [List.drop_append_eq_append_drop, List.drop_eq_nil_of_le (by omega),
            Nat.add_sub_cancel_left, List.nil_append, List.drop_succ_cons,
            List.drop_zero]
        rw [hdrop, ih f (List.cons_ne_nil y r)
          (fun p hp => hno p (List.mem_cons_of_mem x hp))
          (by simp only [List.length_cons] at hfuel ⊢; omega)]

/-- Splitting a separator-join on a single-character separator recovers
the parts when none of them contains the separator. -/
theorem jsSplit_single (c : Nat) (parts : List JStr) (hne : parts ≠ [])
    (hno : ∀ p ∈ parts, c ∉ p) :
    jsSplit [c] (joinSep [c] parts) = parts := by
  unfold jsSplit
  rw [if_neg (List.cons_ne_nil c [])]
  exact jsSplitGo_single c parts _ hne hno (by have := joinSep_length_ge c parts; omega)

theorem encCharSpec_ne_nil (m : EncMode) (c : Nat) : encCharSpec m c ≠ [] := by
  cases m with
  | strict =>
    show percentTransform c ≠ []
    by_cases hp : isStrictUnescaped c = true
    · rw [percentTransform_pass hp]; exact List.cons_ne_nil _ _
    · rw [percentTransform_esc (Bool.eq_false_iff.mpr hp)]; exact List.cons_ne_nil _ _
  | uriComp =>
    show (if isComponentUnescaped c then [c] else percentCU :: byteToHex2 c) ≠ []
    split_ifs <;> exact List.cons_ne_nil _ _
  | uriFull =>
    show (if isUriUnescaped c then [c] else percentCU :: byteToHex2 c) ≠ []
    split_ifs <;> exact List.cons_ne_nil _ _

theorem encStr_ne_nil (m : EncMode) (s : JStr) (hs : s ≠ []) : encStr m s ≠ [] := by
  cases s with
  | nil => exact absurd rfl hs
  | cons c rest =>
    rw [encStr_cons]
    intro h
    rw [List.append_eq_nil] at h
    exact encCharSpec_ne_nil m c h.1

/-- The strict encoder applied to a string value, character-wise. -/
theorem percentEncode_str (s : JStr) : percentEncode (.str s) = encStr .strict s := by
  unfold percentEncode
  rw [if_neg (by intro h; exact Bool.noConfusion h)]
  show applyStringTransform s percentTransform = _
  unfold applyStringTransform encStr
  congr 1

/-- On ASCII input the `Encode` loop never pairs surrogates and escapes
single bytes, matching the character-wise spec (any sufficient fuel). -/
theorem encodeGo_safe :
    ∀ (s : JStr), (∀ c ∈ s, c < 0x80) → ∀ fuel, s.length < fuel →
      encodeGo isComponentUnescaped fuel s = .ok (encStr .uriComp s) := by
  intro s
  induction s with
  | nil => intro _ fuel _; cases fuel <;> rfl
  | cons c rest ih =>
    intro h fuel hf
    have hc := h c (List.mem_cons_self c rest)
    have hr := ih (fun x hx => h x (List.mem_cons_of_mem c hx))
    simp only [List.length_cons] at hf
    cases fuel with
    | zero => omega
    | succ f =>
      rw [encStr_cons]
      have hone : encodeOne isComponentUnescaped c rest =
          some (encCharSpec .uriComp c, rest) := by
        unfold encodeOne
        by_cases hp : isComponentUnescaped c = true
        · rw [if_pos hp]
          have h2 : encCharSpec .uriComp c = [c] := by
            show (if isComponentUnescaped c then [c] else percentCU :: byteToHex2 c) = [c]
            rw [if_pos hp]
          rw [h2]
        · rw [if_neg hp, if_pos (Or.inl (by omega : c < 0xD800))]
          have h2 : encCharSpec .uriComp c = percentCU :: byteToHex2 c := by
            show (if isComponentUnescaped c then [c] else percentCU :: byteToHex2 c) = _
            rw [if_neg hp]
          have h3 : utf8Bytes c = [c] := by
            unfold utf8Bytes
            rw [if_pos hc]
          rw [h2, h3]
          show some (percentEscapeByte c ++ [], rest) = _
          rw [List.append_nil]
          rfl
      simp only [encodeGo, hone]
      rw [hr f (by omega)]

/-- On ASCII input `encodeURIComponent`'s Encode walk matches the
character-wise spec encoding. -/
theorem encodeURIStr_safe (s : JStr) (hs : ∀ c ∈ s, c < 0x80) :
    encodeURIStr isComponentUnescaped s = .ok (encStr .uriComp s) :=
  encodeGo_safe s hs (s.length + 1) (Nat.lt_succ_self _)

/-- The encoding stored in the operator table, applied to a safe string
value, is the character-wise spec encoding. -/
theorem encodeApply_spec (m : EncMode) (hm : m = .strict ∨ m = .uriComp)
    (s : JStr) (hs : ∀ c ∈ s, c < 0x80) :
    encodeApply m (.str s) = .ok (encStr m s) := by
  rcases hm with rfl | rfl
  · show Except.ok (percentEncode (.str s)) = _
    rw [percentEncode_str]
  · show encodeURIComponent (.str s) = _
    unfold encodeURIComponent
    show encodeURIStr isComponentUnescaped s = _
    exact encodeURIStr_safe s hs

/-- The pass-through predicate of each encoder. -/
def passB : EncMode → Nat → Bool
  | .strict, c => isStrictUnescaped c
  | .uriComp, c => isComponentUnescaped c
  | .uriFull, c => isUriUnescaped c

theorem hexCharUpper_isUC (d : Nat) (h : d < 16) : isHexDigitUC (hexCharUpper d) = true := by
  interval_cases d <;> decide

/-- Any unit of a character's encoding is a percent sign, an uppercase
hexadecimal digit, or the character itself passed through. -/
theorem mem_encCharSpec (m : EncMode) (c x : Nat) (hc : c < 0x80)
    (hx : x ∈ encCharSpec m c) :
    x = percentCU ∨ isHexDigitUC x = true ∨ (x = c ∧ passB m c = true) := by
  cases m with
  | strict =>
    by_cases hp : isStrictUnescaped c = true
    · have h2 : encCharSpec .strict c = [c] := by
        show percentTransform c = [c]
        exact percentTransform_pass hp
      rw [h2, List.mem_singleton] at hx
      exact Or.inr (Or.inr ⟨hx, hp⟩)
    · have h2 : encCharSpec .strict c = percentCU :: jsToUpperCase (jsToStringHex c) := by
        show percentTransform c = _
        exact percentTransform_esc (Bool.eq_false_iff.mpr hp)
      rw [h2, List.mem_cons] at hx
      rcases hx with rfl | hx
      · exact Or.inl rfl
      · exact Or.inr (Or.inl ((upperHexDigits_spec (c + 1) c (Nat.lt_succ_self c)).2.1 x hx))
  | uriComp =>
    by_cases hp : isComponentUnescaped c = true
    · have h2 : encCharSpec .uriComp c = [c] := by
        show (if isComponentUnescaped c then [c] else percentCU :: byteToHex2 c) = [c]
        rw [if_pos hp]
      rw [h2, List.mem_singleton] at hx
      exact Or.inr (Or.inr ⟨hx, hp⟩)
    · have h2 : encCharSpec .uriComp c = percentCU :: byteToHex2 c := by
        show (if isComponentUnescaped c then [c] else percentCU :: byteToHex2 c) = _
        rw [if_neg hp]
      rw [h2, List.mem_cons] at hx
      rcases hx with rfl | hx
      · exact Or.inl rfl
      · unfold byteToHex2 at hx
        rcases List.mem_pair.mp hx with rfl | rfl
        · exact Or.inr (Or.inl (hexCharUpper_isUC (c / 16) (by omega)))
        · exact Or.inr (Or.inl (hexCharUpper_isUC (c % 16) (by omega)))
  | uriFull =>
    by_cases hp : isUriUnescaped c = true
    · have h2 : encCharSpec .uriFull c = [c] := by
        show (if isUriUnescaped c then [c] else percentCU :: byteToHex2 c) = [c]
        rw [if_pos hp]
      rw [h2, List.mem_singleton] at hx
      exact Or.inr (Or.inr ⟨hx, hp⟩)
    · have h2 : encCharSpec .uriFull c = percentCU :: byteToHex2 c := by
        show (if isUriUnescaped c then [c] else percentCU :: byteToHex2 c) = _
        rw [if_neg hp]
      rw [h2, List.mem_cons] at hx
      rcases hx with rfl | hx
      · exact Or.inl rfl
      · unfold byteToHex2 at hx
        rcases List.mem_pair.mp hx with rfl | rfl
        · exact Or.inr (Or.inl (hexCharUpper_isUC (c / 16) (by omega)))
        · exact Or.inr (Or.inl (hexCharUpper_isUC (c % 16) (by omega)))

theorem mem_encStr_char (m : EncMode) :
    ∀ (s : JStr), (∀ c ∈ s, c < 0x80) → ∀ x ∈ encStr m s,
      x = percentCU ∨ isHexDigitUC x = true ∨ ∃ c ∈ s, x = c ∧ passB m c = true := by
  intro s
  induction s with
  | nil => intro _ x hx; exact absurd hx (List.not_mem_nil x)
  | cons c rest ih =>
    intro h x hx
    rw [encStr_cons, List.mem_append] at hx
    rcases hx with hx | hx
    · rcases mem_encCharSpec m c x (h c (List.mem_cons_self c rest)) hx with h1 | h1 | h1
      · exact Or.inl h1
      · exact Or.inr (Or.inl h1)
      · exact Or.inr (Or.inr ⟨c, List.mem_cons_self c rest, h1⟩)
    · rcases ih (fun y hy => h y (List.mem_cons_of_mem c hy)) x hx with h1 | h1 | ⟨d, hd, h2⟩
      · exact Or.inl h1
      · exact Or.inr (Or.inl h1)
      · exact Or.inr (Or.inr ⟨d, List.mem_cons_of_mem c hd, h2⟩)

/-- A variable missing from the data contributes the `null` marker. -/
theorem renderVariable_undef (opts : OperatorProfile) (V : List (JStr × JSValue))
    (vr : Var) (h : jsLookup V vr.name = .undef) :
    renderVariable opts V vr = .ok none := by
  unfold renderVariable
  rw [h]
  rfl

theorem renderCompositeElem_str (opts : OperatorProfile) (vr : Var) (s : JStr)
    (hml : vr.maxLength = none)
    (henc : encodeApply opts.encode (.str s) = .ok (encStr opts.encode s))
    (hs : s ≠ []) (hnm : vr.name ≠ []) :
    renderCompositeElem opts vr (.str s) = .ok (renderVarSpec opts s vr) := by
  have hne := encStr_ne_nil opts.encode s hs
  simp only [renderCompositeElem, typeofObject, Bool.false_eq_true, if_false, hml,
    applyMaxLength, henc, renderVarSpec]
  cases hasg : opts.assignment with
  | true => simp only [if_true, if_pos hne]
  | false => simp only [Bool.false_eq_true, if_false]

theorem renderPlainElem_str (opts : OperatorProfile) (vr : Var) (s : JStr)
    (hml : vr.maxLength = none)
    (henc : encodeApply opts.encode (.str s) = .ok (encStr opts.encode s)) :
    renderPlainElem opts vr (.str s) = .ok (encStr opts.encode s) := by
  simp only [renderPlainElem, typeofObject, Bool.false_eq_true, if_false, hml,
    applyMaxLength, henc]

/-- A defined safe scalar renders exactly as the specification says, for
either value of the composite flag. -/
theorem renderVariable_str (opts : OperatorProfile) (V : List (JStr × JSValue))
    (vr : Var) (s : JStr) (hml : vr.maxLength = none)
    (hlook : jsLookup V vr.name = .str s) (hs : s ≠ []) (hnm : vr.name ≠ [])
    (henc : encodeApply opts.encode (.str s) = .ok (encStr opts.encode s)) :
    renderVariable opts V vr = .ok (some (renderVarSpec opts s vr)) := by
  have hne := encStr_ne_nil opts.encode s hs
  simp only [renderVariable, hlook]
  have hfil : (List.filter isDefined
      (match JSValue.str s with | JSValue.list es => es | v => [v])) = [JSValue.str s] := rfl
  rw [hfil]
  rw [if_neg (by intro h; exact Bool.noConfusion h)]
  cases hcomp : vr.composite with
  | true =>
    have h1 : mapExc (renderCompositeElem opts vr) [JSValue.str s] =
        .ok [renderVarSpec opts s vr] := by
      simp only [mapExc, renderCompositeElem_str opts vr s hml henc hs hnm]
    rw [if_pos rfl, h1]
    show Except.ok (some (joinSep opts.sep [renderVarSpec opts s vr])) = _
    rfl
  | false =>
    have h1 : mapExc (renderPlainElem opts vr) [JSValue.str s] =
        .ok [encStr opts.encode s] := by
      simp only [mapExc, renderPlainElem_str opts vr s hml henc]
    rw [if_neg (by intro h; exact Bool.noConfusion h), h1]
    show (if opts.assignment then
        if joinSep [commaCU] [encStr opts.encode s] ≠ [] then
          Except.ok (some (vr.name ++ equalsCU :: joinSep [commaCU] [encStr opts.encode s]))
        else if opts.assignEmpty then Except.ok (some (vr.name ++ [equalsCU]))
        else Except.ok (some vr.name)
      else Except.ok (some (joinSep [commaCU] [encStr opts.encode s]))) = _
    have hj : joinSep [commaCU] [encStr opts.encode s] = encStr opts.encode s := rfl
    rw [hj]
    unfold renderVarSpec
    cases hasg : opts.assignment with
    | true => rw [if_pos rfl, if_pos hne, if_pos rfl]
    | false =>
      rw [if_neg (by intro h; exact Bool.noConfusion h),
        if_neg (by intro h; exact Bool.noConfusion h)]

theorem validName_ne_nil {n : JStr} (h : validName n = true) : n ≠ [] := by
  cases n with
  | nil => exact absurd h (by decide)
  | cons c rest => exact List.cons_ne_nil c rest

theorem validName_chars {n : JStr} (h : validName n = true) :
    ∀ x ∈ n, isAsciiNameCU x = true := by
  cases n with
  | nil => intro x hx; exact absurd hx (List.not_mem_nil x)
  | cons c rest =>
    unfold validName at h
    rw [Bool.and_eq_true, List.all_eq_true] at h
    intro x hx
    rcases List.mem_cons.mp hx with rfl | hx
    · exact nameStart_nameCU h.1
    · exact h.2 x hx

/-- The encoder of every non-lossy operator is the strict one or the
`encodeURIComponent` one. -/
theorem nonLossy_encode (op : Op) (hop : op ∈ nonLossyOps) :
    (operatorOptions op).encode = .strict ∨ (operatorOptions op).encode = .uriComp := by
  fin_cases hop
  · exact Or.inl rfl
  · exact Or.inl rfl
  · exact Or.inr rfl
  · exact Or.inr rfl
  · exact Or.inr rfl
  · exact Or.inr rfl

/-- A defined value satisfying the round-trip value condition is a
non-empty string of safe characters, and is what `strValOf` reads. -/
theorem valOK_str (op : Op) (V : List (JStr × JSValue)) (vr : Var)
    (hval : valOKb op (jsLookup V vr.name) = true) (hdef : defdB V vr = true) :
    jsLookup V vr.name = .str (strValOf V vr) ∧ strValOf V vr ≠ [] ∧
      ∀ c ∈ strValOf V vr, valCharOK op c = true := by
  unfold defdB at hdef
  cases hlook : jsLookup V vr.name with
  | undef => rw [hlook] at hdef; exact absurd hdef (by decide)
  | str s =>
    rw [hlook] at hval
    unfold valOKb at hval
    rw [Bool.and_eq_true, decide_eq_true_eq, List.all_eq_true] at hval
    have hs : strValOf V vr = s := by
      unfold strValOf
      rw [hlook]
    rw [hs]
    exact ⟨rfl, hval.1, hval.2⟩
  | null => rw [hlook] at hval; exact Bool.noConfusion hval
  | bool b => rw [hlook] at hval; exact Bool.noConfusion hval
  | num n => rw [hlook] at hval; exact Bool.noConfusion hval
  | list es => rw [hlook] at hval; exact Bool.noConfusion hval
  | obj kvs => rw [hlook] at hval; exact Bool.noConfusion hval

theorem valCharOK_safe {op : Op} {c : Nat} (h : valCharOK op c = true) :
    0x10 ≤ c ∧ c < 0x80 := by
  unfold valCharOK SafeCharB at h
  rw [Bool.and_eq_true, Bool.and_eq_true, decide_eq_true_eq, decide_eq_true_eq] at h
  exact h.1

/-- How one variable of a non-lossy expression renders: the `null`
marker when undefined, the specification's rendering when defined. -/
theorem renderVariable_ok (op : Op) (hop : op ∈ nonLossyOps)
    (V : List (JStr × JSValue)) (vr : Var)
    (hml : vr.maxLength = none) (hnm : validName vr.name = true)
    (hval : valOKb op (jsLookup V vr.name) = true) :
    renderVariable (operatorOptions op) V vr =
      .ok (if defdB V vr then
        some (renderVarSpec (operatorOptions op) (strValOf V vr) vr) else none) := by
  cases hdef : defdB V vr with
  | false =>
    unfold defdB at hdef
    cases hlook : jsLookup V vr.name with
    | undef => rw [if_neg (by intro h; exact Bool.noConfusion h)]
               exact renderVariable_undef _ V vr hlook
    | str s => rw [hlook] at hdef; exact Bool.noConfusion hdef
    | null => rw [hlook] at hval; exact Bool.noConfusion hval
    | bool b => rw [hlook] at hval; exact Bool.noConfusion hval
    | num n => rw [hlook] at hval; exact Bool.noConfusion hval
    | list es => rw [hlook] at hval; exact Bool.noConfusion hval
    | obj kvs => rw [hlook] at hval; exact Bool.noConfusion hval
  | true =>
    obtain ⟨hlook, hne, hsafe⟩ := valOK_str op V vr hval hdef
    rw [if_pos rfl]
    exact renderVariable_str (operatorOptions op) V vr (strValOf V vr) hml hlook hne
      (validName_ne_nil hnm)
      (encodeApply_spec _ (nonLossy_encode op hop) _
        (fun c hc => (valCharOK_safe (hsafe c hc)).2))

/-- Sequential effectful map over pointwise successful steps. -/
theorem mapExc_ok_of {α β : Type _} (f : α → Except Unit β) (g : α → β) :
    ∀ (l : List α), (∀ a ∈ l, f a = .ok (g a)) → mapExc f l = .ok (l.map g) := by
  intro l
  induction l with
  | nil => intro _; rfl
  | cons a t ih =>
    intro h
    simp only [mapExc, h a (List.mem_cons_self a t),
      ih (fun x hx => h x (List.mem_cons_of_mem a hx)), List.map_cons]

theorem filterMap_defd (p : α → Bool) (f : α → β) :
    ∀ (l : List α),
      (l.map (fun a => if p a then some (f a) else none)).filterMap id =
        (l.filter p).map f := by
  intro l
  induction l with
  | nil => rfl
  | cons a t ih =>
    cases hp : p a with
    | true => simp [List.filter_cons, hp, ih]
    | false => simp [List.filter_cons, hp, ih]

theorem catPieces_nil (gs : List JStr) : catPieces [] gs = [] := by
  cases gs <;> rfl

theorem catPieces_cons (o : JStr) (os : List JStr) (g : JStr) (gs : List JStr) :
    catPieces (o :: os) (g :: gs) = o ++ g ++ catPieces os gs := rfl

/-- The `stringify` per-piece output expression is the specification's
per-piece rendering. -/
theorem renderPieceSpec_out (V : List (JStr × JSValue)) (pc : Piece) :
    (if (pc.vars.filter (defdB V)).map (fun vr =>
        renderVarSpec (operatorOptions pc.operator) (strValOf V vr) vr) ≠ [] then
      (operatorOptions pc.operator).pre ++ joinSep (operatorOptions pc.operator).sep
        ((pc.vars.filter (defdB V)).map (fun vr =>
          renderVarSpec (operatorOptions pc.operator) (strValOf V vr) vr))
    else []) = renderPieceSpec V pc := by
  unfold renderPieceSpec
  cases hds : pc.vars.filter (defdB V) with
  | nil => simp
  | cons d ds' => simp

/-- The per-piece expansion loop emits exactly the specification's
per-piece outputs interleaved with the glues. -/
theorem stringifyGo_spec (V : List (JStr × JSValue)) :
    ∀ (pieces : List Piece) (gs : List JStr),
      pieces.length ≤ gs.length →
      (∀ pc ∈ pieces, pc.operator ∈ nonLossyOps ∧
        ∀ vr ∈ pc.vars, vr.maxLength = none ∧ validName vr.name = true ∧
          valOKb pc.operator (jsLookup V vr.name) = true) →
      stringifyGo V pieces gs =
        .ok (catPieces (pieces.map (renderPieceSpec V)) gs) := by
  intro pieces
  induction pieces with
  | nil =>
    intro gs _ _
    rw [List.map_nil, catPieces_nil]
    rfl
  | cons pc ps ih =>
    intro gs hlen h
    cases gs with
    | nil => simp at hlen
    | cons g gs' =>
      obtain ⟨hop, hvars⟩ := h pc (List.mem_cons_self pc ps)
      have hmap : mapExc (renderVariable (operatorOptions pc.operator) V) pc.vars =
          .ok (pc.vars.map (fun vr =>
            if defdB V vr then
              some (renderVarSpec (operatorOptions pc.operator) (strValOf V vr) vr)
            else none)) :=
        mapExc_ok_of _ _ pc.vars (fun vr hvr =>
          renderVariable_ok pc.operator hop V vr (hvars vr hvr).1 (hvars vr hvr).2.1
            (hvars vr hvr).2.2)
      have hrec : stringifyGo V ps gs' =
          .ok (catPieces (ps.map (renderPieceSpec V)) gs') :=
        ih gs' (by simp only [List.length_cons] at hlen; omega)
          (fun p hp => h p (List.mem_cons_of_mem pc hp))
      simp only [stringifyGo, hmap, List.tail_cons, List.headD_cons, hrec]
      rw [filterMap_defd (defdB V)
        (fun vr => renderVarSpec (operatorOptions pc.operator) (strValOf V vr) vr) pc.vars]
      rw [renderPieceSpec_out V pc]
      rw [List.map_cons, catPieces_cons]

/-- Expansion of an aligned template produces the head glue followed by
the specification's per-piece outputs interleaved with the tail glues. -/
theorem stringify_spec (glues : List JStr) (pieces : List Piece)
    (V : List (JStr × JSValue))
    (hlen : glues.length = pieces.length + 1)
    (h : ∀ pc ∈ pieces, pc.operator ∈ nonLossyOps ∧
      ∀ vr ∈ pc.vars, vr.maxLength = none ∧ validName vr.name = true ∧
        valOKb pc.operator (jsLookup V vr.name) = true) :
    stringify glues pieces V =
      .ok (glues.headD [] ++ catPieces (pieces.map (renderPieceSpec V)) glues.tail) := by
  cases glues with
  | nil => simp at hlen
  | cons g0 gs =>
    have hrec := stringifyGo_spec V pieces gs
      (by simp only [List.length_cons] at hlen; omega) h
    simp only [stringify, hrec, List.headD_cons, List.tail_cons]

/-- The anchor-safety side condition over rendered outputs: a following
non-empty glue never occurs inside the output it terminates. -/
def gluesSafe : List JStr → List JStr → Bool
  | o :: os, g :: gs =>
    (decide (g = []) ||
      (List.range o.length).all (fun p => !(matchesAt (o ++ g) g p))) && gluesSafe os gs
  | _, _ => true

theorem glueSafeB_eq_gluesSafe (V : List (JStr × JSValue)) :
    ∀ (pieces : List Piece) (gs : List JStr),
      glueSafeB V pieces gs = gluesSafe (pieces.map (renderPieceSpec V)) gs := by
  intro pieces
  induction pieces with
  | nil => intro gs; cases gs <;> rfl
  | cons pc ps ih =>
    intro gs
    cases gs with
    | nil => rfl
    | cons g gs' =>
      rw [List.map_cons]
      show ((decide (g = []) ||
          (List.range (renderPieceSpec V pc).length).all
            (fun p => !(matchesAt (renderPieceSpec V pc ++ g) g p))) &&
          glueSafeB V ps gs') =
        ((decide (g = []) ||
          (List.range (renderPieceSpec V pc).length).all
            (fun p => !(matchesAt (renderPieceSpec V pc ++ g) g p))) &&
          gluesSafe (ps.map (renderPieceSpec V)) gs')
      rw [ih gs']

/-- The anchor positions the boundary-recovery pass is expected to
record: each glue sits right after its piece's output. -/
def specOffs : Nat → List JStr → List JStr → List Nat
  | _, _, [] => []
  | _, [], _ :: _ => []
  | cur, o :: os, g :: gs => (cur + o.length) :: specOffs (cur + o.length + g.length) os gs

/-- On the expansion string, the anchoring pass finds each glue exactly
at the end of the preceding piece's output. -/
theorem segOffsetsGo_round :
    ∀ (gluesT outs : List JStr) (pre : JStr),
      outs.length = gluesT.length →
      interiorNonempty gluesT = true →
      gluesSafe outs gluesT = true →
      segOffsetsGo (pre ++ catPieces outs gluesT) gluesT pre.length false =
        some (specOffs pre.length outs gluesT) := by
  intro gluesT
  induction gluesT with
  | nil =>
    intro outs pre _ _ _
    cases outs <;> rfl
  | cons g gs' ih =>
    intro outs pre hlen hint hsafe
    cases outs with
    | nil => simp at hlen
    | cons o os =>
      rw [catPieces_cons]
      cases hg : decide (g = []) with
      | true =>
        rw [decide_eq_true_eq] at hg
        subst hg
        have hgs : gs' = [] := by
          cases gs' with
          | nil => rfl
          | cons g2 r =>
            exfalso
            unfold interiorNonempty at hint
            rw [Bool.and_eq_true, decide_eq_true_eq] at hint
            exact hint.1 rfl
        subst hgs
        have hos : os = [] := by
          cases os with
          | nil => rfl
          | cons _ _ => simp at hlen
        subst hos
        rw [catPieces_nil, List.append_nil, List.append_nil]
        have hstep : segOffsetsGo (pre ++ o) [[]] pre.length false =
            match segOffsetsGo (pre ++ o) []
              ((pre ++ o).length + List.length ([] : JStr)) false with
            | some rest => some ((pre ++ o).length :: rest)
            | none => none :=
          segOffsetsGo_cons_some (pre ++ o) [] [] pre.length false (pre ++ o).length
            (by rw [if_pos ⟨rfl, rfl⟩])
        rw [hstep]
        show some [(pre ++ o).length] = some [pre.length + o.length]
        rw [List.length_append]
      | false =>
        rw [decide_eq_false_iff_not] at hg
        have hsafe1 : ∀ p < o.length, matchesAt (o ++ g) g p = false := by
          intro p hp
          unfold gluesSafe at hsafe
          rw [Bool.and_eq_true, Bool.or_eq_true] at hsafe
          rcases hsafe.1 with hc | hc
          · rw [decide_eq_true_eq] at hc; exact absurd hc hg
          · rw [List.all_eq_true] at hc
            have := hc p (List.mem_range.mpr hp)
            rw [Bool.not_eq_true'] at this
            exact this
        have hsafe2 : gluesSafe os gs' = true := by
          unfold gluesSafe at hsafe
          rw [Bool.and_eq_true] at hsafe
          exact hsafe.2
        have hint2 : interiorNonempty gs' = true := by
          cases gs' with
          | nil => rfl
          | cons g2 r =>
            unfold interiorNonempty at hint
            rw [Bool.and_eq_true] at hint
            exact hint.2
        have hidx : jsIndexOf (pre ++ (o ++ g ++ catPieces os gs')) g pre.length =
            some (pre.length + o.length) := by
          rw [jsIndexOf_eq_some_iff]
          have hlenS : (pre ++ (o ++ g ++ catPieces os gs')).length =
              pre.length + o.length + g.length + (catPieces os gs').length := by
            simp only [List.length_append]
            omega
          have hmin : min pre.length (pre ++ (o ++ g ++ catPieces os gs')).length =
              pre.length := Nat.min_eq_left (by omega)
          rw [hmin]
          refine ⟨by omega, by omega, ?_, ?_⟩
          · have hre : pre ++ (o ++ g ++ catPieces os gs') =
                (pre ++ o) ++ (g ++ catPieces os gs') := by
              simp only [List.append_assoc]
            have hl : (pre ++ o).length = pre.length + o.length := by
              simp only [List.length_append]
            rw [hre, ← hl]
            have h2 := matchesAt_shift (pre ++ o) (g ++ catPieces os gs') g 0
            rw [Nat.add_zero] at h2
            rw [h2]
            unfold matchesAt
            rw [decide_eq_true_eq, List.drop_zero]
            exact List.prefix_append g (catPieces os gs')
          · intro r hr1 hr2
            cases hm : matchesAt (pre ++ (o ++ g ++ catPieces os gs')) g r with
            | false => rfl
            | true =>
              exfalso
              have hp : r - pre.length < o.length := by omega
              have heq : r = pre.length + (r - pre.length) := by omega
              rw [heq, matchesAt_shift pre (o ++ g ++ catPieces os gs') g
                (r - pre.length)] at hm
              have hrev : matchesAt (o ++ g) g (r - pre.length) = true := by
                refine matchesAt_append_rev (o ++ g) (catPieces os gs') g
                  (r - pre.length) ?_ hm
                rw [List.length_append]
                omega
              rw [hsafe1 (r - pre.length) hp] at hrev
              exact Bool.noConfusion hrev
        have hstep := segOffsetsGo_cons_some (pre ++ (o ++ g ++ catPieces os gs')) g gs'
          pre.length false (pre.length + o.length)
          (by rw [if_neg (fun hc => hg hc.2), hidx])
        rw [hstep]
        have hrec : segOffsetsGo (pre ++ (o ++ g ++ catPieces os gs')) gs'
            (pre.length + o.length + g.length) false =
            some (specOffs (pre.length + o.length + g.length) os gs') := by
          have h1 := ih os ((pre ++ o) ++ g)
            (by simp only [List.length_cons] at hlen; omega) hint2 hsafe2
          have h2 : ((pre ++ o) ++ g).length = pre.length + o.length + g.length := by
            simp only [List.length_append]
          have h3 : ((pre ++ o) ++ g) ++ catPieces os gs' =
              pre ++ (o ++ g ++ catPieces os gs') := by
            simp only [List.append_assoc]
          rw [h2, h3] at h1
          exact h1
        rw [hrec]
        rfl

/-- On the expansion string, the full boundary-recovery pass anchors the
head glue at position `0` and each following glue at the end of its
piece's output. -/
theorem getSegmentsOffsets_round (g0 : JStr) (outs gluesT : List JStr)
    (hlen : outs.length = gluesT.length)
    (hint : interiorNonempty gluesT = true)
    (hsafe : gluesSafe outs gluesT = true) :
    getSegmentsOffsets (g0 ++ catPieces outs gluesT) (g0 :: gluesT) =
      some (0 :: specOffs g0.length outs gluesT) := by
  unfold getSegmentsOffsets
  have hidx : jsIndexOf (g0 ++ catPieces outs gluesT) g0 0 = some 0 := by
    rw [jsIndexOf_eq_some_iff]
    have hmin : min 0 (g0 ++ catPieces outs gluesT).length = 0 := Nat.min_eq_left (by omega)
    rw [hmin]
    refine ⟨Nat.le_refl 0, Nat.zero_le _, ?_, ?_⟩
    · unfold matchesAt
      rw [decide_eq_true_eq, List.drop_zero]
      exact List.prefix_append g0 (catPieces outs gluesT)
    · intro r hr1 hr2
      omega
  have hstep := segOffsetsGo_cons_some (g0 ++ catPieces outs gluesT) g0 gluesT 0 true 0
    (by rw [if_neg (fun hc => Bool.noConfusion hc.1), hidx])
  rw [hstep]
  have hrec := segOffsetsGo_round gluesT outs g0 hlen hint hsafe
  rw [Nat.zero_add] at hstep ⊢
  rw [hrec]

/-- Setting a fresh key appends the pair at the end of the object. -/
theorem objSet_fresh (k v : JStr) :
    ∀ (d : VarMap), (∀ kv ∈ d, kv.1 ≠ k) → objSet d k v = d ++ [(k, v)] := by
  intro d
  induction d with
  | nil => intro _; rfl
  | cons kv rest ih =>
    intro h
    unfold objSet
    rw [if_neg (h kv (List.mem_cons_self kv rest)), List.cons_append,
      ih (fun x hx => h x (List.mem_cons_of_mem kv hx))]

/-- No unit of a variable's rendering is the separator character, given
the per-character facts about the separator. -/
theorem sepChar_not_mem_renderVarSpec (opts : OperatorProfile) (vr : Var) (s : JStr)
    (sepChar : Nat)
    (hname : ∀ x ∈ vr.name, isAsciiNameCU x = true)
    (hval : ∀ c ∈ s, c < 0x80)
    (h1 : isAsciiNameCU sepChar = false)
    (h2 : sepChar ≠ equalsCU)
    (h3 : sepChar ≠ percentCU)
    (h4 : isHexDigitUC sepChar = false)
    (h5 : ∀ c ∈ s, sepChar = c → passB opts.encode c = false) :
    sepChar ∉ renderVarSpec opts s vr := by
  intro hmem
  have henc : sepChar ∉ encStr opts.encode s := by
    intro he
    rcases mem_encStr_char opts.encode s hval sepChar he with hc | hc | ⟨c, hcs, hxc, hp⟩
    · exact h3 hc
    · rw [h4] at hc; exact Bool.noConfusion hc
    · rw [h5 c hcs hxc] at hp; exact Bool.noConfusion hp
  unfold renderVarSpec at hmem
  by_cases hasg : opts.assignment = true
  · rw [if_pos hasg] at hmem
    rw [List.mem_append, List.mem_cons] at hmem
    rcases hmem with hc | hc | hc
    · rw [hname sepChar hc] at h1; exact Bool.noConfusion h1
    · exact h2 hc
    · exact henc hc
  · rw [if_neg hasg] at hmem
    exact henc hmem

/-- The separator of every non-lossy operator is a single character. -/
theorem nonLossy_sep_single (op : Op) (hop : op ∈ nonLossyOps) :
    ∃ sc, (operatorOptions op).sep = [sc] := by
  fin_cases hop
  · exact ⟨commaCU, rfl⟩
  · exact ⟨0x2E, rfl⟩
  · exact ⟨0x2F, rfl⟩
  · exact ⟨0x3B, rfl⟩
  · exact ⟨0x26, rfl⟩
  · exact ⟨0x26, rfl⟩

/-- The separator character of a non-lossy operator occurs nowhere in a
rendered variable. -/
theorem sep_free (op : Op) (hop : op ∈ nonLossyOps) (vr : Var) (s : JStr)
    (hname : validName vr.name = true)
    (hval : ∀ c ∈ s, valCharOK op c = true)
    (sepChar : Nat) (hsep : (operatorOptions op).sep = [sepChar]) :
    sepChar ∉ renderVarSpec (operatorOptions op) s vr := by
  have hnm := validName_chars hname
  have hv80 : ∀ c ∈ s, c < 0x80 := fun c hc => (valCharOK_safe (hval c hc)).2
  fin_cases hop
  · -- plain, separator ","
    have hc : sepChar = commaCU := by
      have := hsep
      simp only [operatorOptions] at this
      exact (List.cons.injEq _ _ _ _).mp this |>.1.symm
    subst hc
    refine sepChar_not_mem_renderVarSpec _ vr s _ hnm hv80 (by decide) (by decide)
      (by decide) (by decide) ?_
    intro c _ hc
    rw [← hc]
    decide
  · -- dot, separator "."
    have hc : sepChar = 0x2E := by
      have := hsep
      simp only [operatorOptions] at this
      exact (List.cons.injEq _ _ _ _).mp this |>.1.symm
    subst hc
    refine sepChar_not_mem_renderVarSpec _ vr s _ hnm hv80 (by decide) (by decide)
      (by decide) (by decide) ?_
    intro c hcs hc
    exfalso
    have := hval c hcs
    rw [← hc] at this
    exact absurd this (by decide)
  · -- slash, separator "/"
    have hc : sepChar = 0x2F := by
      have := hsep
      simp only [operatorOptions] at this
      exact (List.cons.injEq _ _ _ _).mp this |>.1.symm
    subst hc
    refine sepChar_not_mem_renderVarSpec _ vr s _ hnm hv80 (by decide) (by decide)
      (by decide) (by decide) ?_
    intro c _ hc
    rw [← hc]
    decide
  · -- semi, separator ";"
    have hc : sepChar = 0x3B := by
      have := hsep
      simp only [operatorOptions] at this
      exact (List.cons.injEq _ _ _ _).mp this |>.1.symm
    subst hc
    refine sepChar_not_mem_renderVarSpec _ vr s _ hnm hv80 (by decide) (by decide)
      (by decide) (by decide) ?_
    intro c _ hc
    rw [← hc]
    decide
  · -- quest, separator "&"
    have hc : sepChar = 0x26 := by
      have := hsep
      simp only [operatorOptions] at this
      exact (List.cons.injEq _ _ _ _).mp this |>.1.symm
    subst hc
    refine sepChar_not_mem_renderVarSpec _ vr s _ hnm hv80 (by decide) (by decide)
      (by decide) (by decide) ?_
    intro c _ hc
    rw [← hc]
    decide
  · -- amp, separator "&"
    have hc : sepChar = 0x26 := by
      have := hsep
      simp only [operatorOptions] at this
      exact (List.cons.injEq _ _ _ _).mp this |>.1.symm
    subst hc
    refine sepChar_not_mem_renderVarSpec _ vr s _ hnm hv80 (by decide) (by decide)
      (by decide) (by decide) ?_
    intro c _ hc
    rw [← hc]
    decide

theorem parseVarsA_step_assign (opts : OperatorProfile) (hasg : opts.assignment = true)
    (v : Var) (vs : List Var) (enc : JStr) (vals : List JStr) (data : VarMap)
    (dec : JStr) (hdec : decodeURIComponent enc = .ok dec) :
    parseVarsA opts (v :: vs) ((v.name ++ equalsCU :: enc) :: vals) data =
      parseVarsA opts vs vals (objSet data v.name dec) := by
  have e1 : (v.name ++ equalsCU :: enc).drop v.name.length = equalsCU :: enc :=
    List.drop_left _ _
  simp only [parseVarsA, hasg, if_true, e1]
  rw [if_neg (fun hc => hc (List.prefix_append v.name (equalsCU :: enc)))]
  rw [if_neg (fun hc => List.noConfusion hc.1)]
  rw [if_neg (fun hc => hc.2 rfl)]
  rw [if_neg (fun hc => List.noConfusion hc)]
  show (match decodeURIComponent ((equalsCU :: enc).drop 1) with
    | Except.error e => Except.error e
    | Except.ok dec2 => parseVarsA opts vs vals (objSet data v.name dec2)) = _
  rw [List.drop_succ_cons, List.drop_zero, hdec]

theorem parseVarsA_step_plain (opts : OperatorProfile) (hasg : opts.assignment = false)
    (v : Var) (vs : List Var) (val : JStr) (vals : List JStr) (data : VarMap)
    (dec : JStr) (hdec : decodeURIComponent val = .ok dec) :
    parseVarsA opts (v :: vs) (val :: vals) data =
      parseVarsA opts vs vals (objSet data v.name dec) := by
  simp only [parseVarsA, hasg, Bool.false_eq_true, if_false, hdec]

/-- Running the inner variable loop on the rendered values of the
defined-variable prefix extends the data with exactly those pairs. -/
theorem parseVarsA_run (opts : OperatorProfile)
    (hm : opts.encode = .strict ∨ opts.encode = .uriComp)
    (V : List (JStr × JSValue)) :
    ∀ (ds rest : List Var) (data : VarMap),
      (∀ vr ∈ ds, jsLookup V vr.name = .str (strValOf V vr) ∧ strValOf V vr ≠ [] ∧
        (∀ c ∈ strValOf V vr, 0x10 ≤ c ∧ c < 0x80) ∧ vr.name ≠ []) →
      (data.map Prod.fst ++ ds.map (fun vr => vr.name)).Nodup →
      parseVarsA opts (ds ++ rest)
          (ds.map (fun vr => renderVarSpec opts (strValOf V vr) vr)) data =
        .ok (some (data ++ ds.map (fun vr => (vr.name, strValOf V vr)))) := by
  intro ds
  induction ds with
  | nil =>
    intro rest data _ _
    rw [List.map_nil, List.map_nil, List.append_nil, List.nil_append]
    cases rest with
    | nil => rfl
    | cons v vs => rfl
  | cons vr ds' ih =>
    intro rest data h hnd
    obtain ⟨hlook, hne, hsafe, hnm⟩ := h vr (List.mem_cons_self vr ds')
    have hdec : decodeURIComponent (encStr opts.encode (strValOf V vr)) =
        .ok (strValOf V vr) := decode_encStr opts.encode hm (strValOf V vr) hsafe
    have hfresh : ∀ kv ∈ data, kv.1 ≠ vr.name := by
      intro kv hkv
      rw [List.map_cons] at hnd
      have hdisj := (List.nodup_append.mp hnd).2.2
      intro hEq
      exact hdisj (List.mem_map.mpr ⟨kv, hkv, hEq⟩) (List.mem_cons_self _ _)
    have hset : objSet data vr.name (strValOf V vr) =
        data ++ [(vr.name, strValOf V vr)] := objSet_fresh _ _ data hfresh
    have hnd' : ((data ++ [(vr.name, strValOf V vr)]).map Prod.fst ++
        ds'.map (fun x => x.name)).Nodup := by
      rw [List.map_append, List.append_assoc]
      have he : ([(vr.name, strValOf V vr)].map Prod.fst) = [vr.name] := rfl
      rw [he, List.singleton_append]
      rw [List.map_cons] at hnd
      exact hnd
    have hstep : parseVarsA opts ((vr :: ds') ++ rest)
        ((vr :: ds').map (fun x => renderVarSpec opts (strValOf V x) x)) data =
        parseVarsA opts (ds' ++ rest)
          (ds'.map (fun x => renderVarSpec opts (strValOf V x) x))
          (objSet data vr.name (strValOf V vr)) := by
      rw [List.cons_append, List.map_cons]
      cases hasg : opts.assignment with
      | true =>
        have hrv : renderVarSpec opts (strValOf V vr) vr =
            vr.name ++ equalsCU :: encStr opts.encode (strValOf V vr) := by
          unfold renderVarSpec
          rw [if_pos hasg]
        rw [hrv]
        exact parseVarsA_step_assign opts hasg vr (ds' ++ rest) _ _ data _ hdec
      | false =>
        have hrv : renderVarSpec opts (strValOf V vr) vr =
            encStr opts.encode (strValOf V vr) := by
          unfold renderVarSpec
          rw [if_neg (by rw [hasg]; exact Bool.false_ne_true)]
        rw [hrv]
        exact parseVarsA_step_plain opts hasg vr (ds' ++ rest) _ _ data _ hdec
    rw [hstep, hset]
    rw [ih rest (data ++ [(vr.name, strValOf V vr)])
      (fun x hx => h x (List.mem_cons_of_mem vr hx)) hnd']
    rw [List.map_cons, List.append_assoc]
    rfl

theorem renderPieceSpec_of_nil (V : List (JStr × JSValue)) (pc : Piece)
    (h : pc.vars.filter (defdB V) = []) : renderPieceSpec V pc = [] := by
  simp only [renderPieceSpec]
  rw [if_pos h]

theorem renderPieceSpec_of_ne (V : List (JStr × JSValue)) (pc : Piece)
    (h : pc.vars.filter (defdB V) ≠ []) :
    renderPieceSpec V pc = (operatorOptions pc.operator).pre ++
      joinSep (operatorOptions pc.operator).sep
        ((pc.vars.filter (defdB V)).map
          (fun vr => renderVarSpec (operatorOptions pc.operator) (strValOf V vr) vr)) := by
  simp only [renderPieceSpec]
  rw [if_neg h]

theorem expectedData_cons (V : List (JStr × JSValue)) (pc : Piece) (ps : List Piece) :
    expectedData V (pc :: ps) =
      (pc.vars.filter (defdB V)).map (fun vr => (vr.name, strValOf V vr)) ++
        expectedData V ps := by
  unfold expectedData
  rw [List.map_cons, List.flatten_cons]

theorem namesOf_cons (pc : Piece) (ps : List Piece) :
    namesOf (pc :: ps) = pc.vars.map (fun vr => vr.name) ++ namesOf ps := by
  unfold namesOf
  rw [List.map_cons, List.flatten_cons]

theorem renderVarSpec_ne_nil (opts : OperatorProfile) (s : JStr) (vr : Var)
    (hnm : vr.name ≠ []) (hs : s ≠ []) : renderVarSpec opts s vr ≠ [] := by
  unfold renderVarSpec
  split_ifs
  · intro h
    rw [List.append_eq_nil] at h
    exact hnm h.1
  · exact encStr_ne_nil opts.encode s hs

/-- The defined variables form a prefix of each expression's variable
list (so positional pairing in extraction lines up). -/
def definedPrefixB (V : List (JStr × JSValue)) (pieces : List Piece) : Bool :=
  pieces.all (fun pc => (pc.vars.dropWhile (defdB V)).all (fun vr => !defdB V vr))

theorem filter_eq_takeWhile_of_suffix_undef {p : α → Bool} :
    ∀ (l : List α), ((l.dropWhile p).all (fun a => !p a)) = true →
      l.filter p = l.takeWhile p := by
  intro l
  induction l with
  | nil => intro _; rfl
  | cons x t ih =>
    intro h
    cases hx : p x with
    | true =>
      rw [List.dropWhile_cons_of_pos hx] at h
      rw [List.filter_cons_of_pos hx, List.takeWhile_cons_of_pos hx, ih h]
    | false =>
      rw [List.dropWhile_cons_of_neg (by rw [hx]; exact Bool.false_ne_true)] at h
      rw [List.all_cons, Bool.and_eq_true] at h
      rw [List.filter_cons_of_neg (by rw [hx]; exact Bool.false_ne_true),
        List.takeWhile_cons_of_neg (by rw [hx]; exact Bool.false_ne_true)]
      apply List.filter_eq_nil_iff.mpr
      intro a ha
      have h2 := List.all_eq_true.mp h.2 a ha
      rw [Bool.not_eq_true'] at h2
      rw [h2]
      exact Bool.false_ne_true

theorem parsePiecesA_cons_eq (s : JStr) (pc : Piece) (ps : List Piece) (g : JStr)
    (gs : List JStr) (o1 o2 : Nat) (os : List Nat) (data : VarMap) :
    parsePiecesA s (pc :: ps) (g :: gs) (o1 :: o2 :: os) data =
      (if jsSubstring s (o1 + g.length) o2 = [] then
        parsePiecesA s ps gs (o2 :: os) data
      else if ¬((operatorOptions pc.operator).pre <+: jsSubstring s (o1 + g.length) o2) then
        .ok none
      else
        match parseVarsA (operatorOptions pc.operator) pc.vars
            (jsSplit (operatorOptions pc.operator).sep
              ((jsSubstring s (o1 + g.length) o2).drop
                (operatorOptions pc.operator).pre.length)) data with
        | .error e => .error e
        | .ok none => .ok none
        | .ok (some data') => parsePiecesA s ps gs (o2 :: os) data') := rfl

/-- Walking the pieces of the expansion string recovers exactly the
defined variables with their values, appended to the data in template
order. -/
theorem parsePiecesA_round (V : List (JStr × JSValue)) :
    ∀ (pieces : List Piece) (gluesT : List JStr) (pre prevG : JStr) (prevA : Nat)
      (data : VarMap),
      pieces.length = gluesT.length →
      pre.length = prevA + prevG.length →
      (∀ pc ∈ pieces, pc.operator ∈ nonLossyOps) →
      (∀ pc ∈ pieces, ∀ vr ∈ pc.vars, vr.maxLength = none ∧ validName vr.name = true) →
      (∀ pc ∈ pieces, ∀ vr ∈ pc.vars, valOKb pc.operator (jsLookup V vr.name) = true) →
      (∀ pc ∈ pieces, pc.vars.filter (defdB V) = pc.vars.takeWhile (defdB V)) →
      (data.map Prod.fst ++ namesOf pieces).Nodup →
      parsePiecesA (pre ++ catPieces (pieces.map (renderPieceSpec V)) gluesT) pieces
          (prevG :: gluesT)
          (prevA :: specOffs pre.length (pieces.map (renderPieceSpec V)) gluesT) data =
        .ok (some (data ++ expectedData V pieces)) := by
  intro pieces
  induction pieces with
  | nil =>
    intro gluesT pre prevG prevA data _ _ _ _ _ _ _
    show Except.ok (some data) = _
    rw [show expectedData V [] = [] from rfl, List.append_nil]
  | cons pc ps ih =>
    intro gluesT pre prevG prevA data hlen hcur hops hvars hvals htake hnd
    cases gluesT with
    | nil => simp at hlen
    | cons g1 gs =>
      have hopc := hops pc (List.mem_cons_self pc ps)
      rw [List.map_cons, catPieces_cons]
      have hoffs : specOffs pre.length
          (renderPieceSpec V pc :: ps.map (renderPieceSpec V)) (g1 :: gs) =
          (pre.length + (renderPieceSpec V pc).length) ::
            specOffs (pre.length + (renderPieceSpec V pc).length + g1.length)
              (ps.map (renderPieceSpec V)) gs := rfl
      rw [hoffs]
      have hre : pre ++ (renderPieceSpec V pc ++ g1 ++
          catPieces (ps.map (renderPieceSpec V)) gs) =
          pre ++ renderPieceSpec V pc ++
            (g1 ++ catPieces (ps.map (renderPieceSpec V)) gs) := by
        simp only [List.append_assoc]
      rw [hre]
      rw [parsePiecesA_cons_eq]
      have hval0 : jsSubstring (pre ++ renderPieceSpec V pc ++
          (g1 ++ catPieces (ps.map (renderPieceSpec V)) gs)) (prevA + prevG.length)
          (pre.length + (renderPieceSpec V pc).length) = renderPieceSpec V pc := by
        rw [← hcur]
        exact jsSubstring_exact pre (renderPieceSpec V pc)
          (g1 ++ catPieces (ps.map (renderPieceSpec V)) gs)
      rw [hval0]
      have hnd2 : (data.map Prod.fst ++
          (pc.vars.map (fun vr => vr.name) ++ namesOf ps)).Nodup := by
        rw [namesOf_cons] at hnd
        exact hnd
      by_cases hds : pc.vars.filter (defdB V) = []
      · -- no defined variable: the piece contributes nothing
        have hout : renderPieceSpec V pc = [] := renderPieceSpec_of_nil V pc hds
        rw [hout]
        rw [if_pos rfl]
        have hnd' : (data.map Prod.fst ++ namesOf ps).Nodup := by
          refine List.Nodup.sublist ?_ hnd2
          exact List.Sublist.append_left
            (List.sublist_append_right _ _) _
        have hih := ih gs (pre ++ g1) g1 pre.length data
          (by simp only [List.length_cons] at hlen; omega)
          (by simp only [List.length_append])
          (fun p hp => hops p (List.mem_cons_of_mem pc hp))
          (fun p hp => hvars p (List.mem_cons_of_mem pc hp))
          (fun p hp => hvals p (List.mem_cons_of_mem pc hp))
          (fun p hp => htake p (List.mem_cons_of_mem pc hp)) hnd'
        rw [show ((pre ++ g1) ++ catPieces (ps.map (renderPieceSpec V)) gs) =
          pre ++ (g1 ++ catPieces (ps.map (renderPieceSpec V)) gs) from by
            simp only [List.append_assoc]] at hih
        rw [show (pre ++ g1).length = pre.length + g1.length from by
          simp only [List.length_append]] at hih
        rw [expectedData_cons, hds, List.map_nil, List.nil_append]
        simp only [List.length_nil, Nat.add_zero, List.append_nil]
        exact hih
      · -- at least one defined variable
        have hdseq := htake pc (List.mem_cons_self pc ps)
        have hvne : ∀ vr ∈ pc.vars.filter (defdB V),
            jsLookup V vr.name = .str (strValOf V vr) ∧ strValOf V vr ≠ [] ∧
              (∀ c ∈ strValOf V vr, valCharOK pc.operator c = true) ∧
              validName vr.name = true := by
          intro vr hvr
          have hmem := (List.mem_filter.mp hvr).1
          have hdef := (List.mem_filter.mp hvr).2
          obtain ⟨h1, h2, h3⟩ :=
            valOK_str pc.operator V vr (hvals pc (List.mem_cons_self pc ps) vr hmem) hdef
          exact ⟨h1, h2, h3, (hvars pc (List.mem_cons_self pc ps) vr hmem).2⟩
        have hrvne : ∀ r ∈ (pc.vars.filter (defdB V)).map
            (fun vr => renderVarSpec (operatorOptions pc.operator) (strValOf V vr) vr),
            r ≠ [] := by
          intro r hr
          obtain ⟨vr, hvr, rfl⟩ := List.mem_map.mp hr
          exact renderVarSpec_ne_nil _ _ _
            (validName_ne_nil (hvne vr hvr).2.2.2) (hvne vr hvr).2.1
        have hout := renderPieceSpec_of_ne V pc hds
        have houtne : renderPieceSpec V pc ≠ [] := by
          rw [hout]
          intro hc
          rw [List.append_eq_nil] at hc
          exact joinSep_ne_nil _ _
            (fun hm => hds (List.map_eq_nil.mp hm)) hrvne hc.2
        rw [if_neg houtne]
        rw [if_neg (fun hc => hc (by rw [hout]; exact List.prefix_append _ _))]
        have hdrop : (renderPieceSpec V pc).drop (operatorOptions pc.operator).pre.length =
            joinSep (operatorOptions pc.operator).sep
              ((pc.vars.filter (defdB V)).map
                (fun vr => renderVarSpec (operatorOptions pc.operator) (strValOf V vr) vr)) := by
          rw [hout, List.drop_left]
        rw [hdrop]
        obtain ⟨sc, hsc⟩ := nonLossy_sep_single pc.operator hopc
        have hsplit : jsSplit (operatorOptions pc.operator).sep
            (joinSep (operatorOptions pc.operator).sep
              ((pc.vars.filter (defdB V)).map
                (fun vr => renderVarSpec (operatorOptions pc.operator) (strValOf V vr) vr))) =
            (pc.vars.filter (defdB V)).map
              (fun vr => renderVarSpec (operatorOptions pc.operator) (strValOf V vr) vr) := by
          rw [hsc]
          refine jsSplit_single sc _ (fun hm => hds (List.map_eq_nil.mp hm)) ?_
          intro r hr
          obtain ⟨vr, hvr, rfl⟩ := List.mem_map.mp hr
          exact sep_free pc.operator hopc vr (strValOf V vr) (hvne vr hvr).2.2.2
            (hvne vr hvr).2.2.1 sc hsc
        rw [hsplit]
        have hdssub : ((pc.vars.filter (defdB V)).map (fun vr => vr.name)).Sublist
            (pc.vars.map (fun vr => vr.name)) :=
          List.Sublist.map _ (List.filter_sublist pc.vars)
        have hndrun : (data.map Prod.fst ++
            (pc.vars.filter (defdB V)).map (fun vr => vr.name)).Nodup := by
          refine List.Nodup.sublist ?_ hnd2
          refine List.Sublist.append_left ?_ _
          exact hdssub.trans (List.sublist_append_left _ _)
        have hrun : parseVarsA (operatorOptions pc.operator) pc.vars
            ((pc.vars.filter (defdB V)).map
              (fun vr => renderVarSpec (operatorOptions pc.operator) (strValOf V vr) vr))
            data =
            .ok (some (data ++ (pc.vars.filter (defdB V)).map
              (fun vr => (vr.name, strValOf V vr)))) := by
          nth_rewrite 1 [show pc.vars = pc.vars.filter (defdB V) ++
            pc.vars.dropWhile (defdB V) from by
              rw [hdseq]
              exact (List.takeWhile_append_dropWhile _ _).symm]
          exact parseVarsA_run (operatorOptions pc.operator)
            (nonLossy_encode pc.operator hopc) V (pc.vars.filter (defdB V))
            (pc.vars.dropWhile (defdB V)) data
            (fun vr hvr => ⟨(hvne vr hvr).1, (hvne vr hvr).2.1,
              fun c hc => valCharOK_safe ((hvne vr hvr).2.2.1 c hc),
              validName_ne_nil (hvne vr hvr).2.2.2⟩)
            hndrun
        rw [hrun]
        have hnd' : ((data ++ (pc.vars.filter (defdB V)).map
            (fun vr => (vr.name, strValOf V vr))).map Prod.fst ++ namesOf ps).Nodup := by
          rw [List.map_append, List.append_assoc]
          have he : ((pc.vars.filter (defdB V)).map
              (fun vr => (vr.name, strValOf V vr))).map Prod.fst =
              (pc.vars.filter (defdB V)).map (fun vr => vr.name) := by
            rw [List.map_map]
            rfl
          rw [he]
          refine List.Nodup.sublist ?_ hnd2
          refine List.Sublist.append_left ?_ _
          exact List.Sublist.append hdssub (List.Sublist.refl _)
        have hih := ih gs (pre ++ renderPieceSpec V pc ++ g1) g1
          (pre.length + (renderPieceSpec V pc).length)
          (data ++ (pc.vars.filter (defdB V)).map (fun vr => (vr.name, strValOf V vr)))
          (by simp only [List.length_cons] at hlen; omega)
          (by simp only [List.length_append])
          (fun p hp => hops p (List.mem_cons_of_mem pc hp))
          (fun p hp => hvars p (List.mem_cons_of_mem pc hp))
          (fun p hp => hvals p (List.mem_cons_of_mem pc hp))
          (fun p hp => htake p (List.mem_cons_of_mem pc hp)) hnd'
        rw [show ((pre ++ renderPieceSpec V pc ++ g1) ++
            catPieces (ps.map (renderPieceSpec V)) gs) =
          pre ++ renderPieceSpec V pc ++
            (g1 ++ catPieces (ps.map (renderPieceSpec V)) gs) from by
            simp only [List.append_assoc]] at hih
        rw [show (pre ++ renderPieceSpec V pc ++ g1).length =
            pre.length + (renderPieceSpec V pc).length + g1.length from by
          simp only [List.length_append]] at hih
        show parsePiecesA (pre ++ renderPieceSpec V pc ++
            (g1 ++ catPieces (ps.map (renderPieceSpec V)) gs)) ps (g1 :: gs)
            ((pre.length + (renderPieceSpec V pc).length) ::
              specOffs (pre.length + (renderPieceSpec V pc).length + g1.length)
                (ps.map (renderPieceSpec V)) gs)
            (data ++ (pc.vars.filter (defdB V)).map (fun vr => (vr.name, strValOf V vr))) =
          Except.ok (some (data ++ expectedData V (pc :: ps)))
        rw [hih]
        rw [expectedData_cons, List.append_assoc]

/-- C6 counterexample: on the compiled template `"a{.x}b"` (glues
`["a","b"]`, one `.`-expression with variable `x`) and the mapping
`{x: "q.r"}` — a defined scalar whose characters never embed the glue
texts `"a"`/`"b"` — expansion yields `"a.q.rb"`, but extraction of that
expansion recovers `{x: "q"}`, not `{x: "q.r"}`: the separator `.`
inside the value splits the segment.  The claimed round-trip fails. -/
theorem c6_counterexample :
    stringify [jstr ("a"), jstr ("b")] [⟨.dot, [⟨jstr ("x"), none, false⟩]⟩]
        [(jstr ("x"), .str (jstr ("q.r")))] = .ok (jstr ("a.q.rb")) ∧
      parse [jstr ("a"), jstr ("b")] [⟨.dot, [⟨jstr ("x"), none, false⟩]⟩]
          (jstr ("a.q.rb")) = .ok (some [(jstr ("x"), jstr ("q"))]) ∧
      jstr ("q") ≠ jstr ("q.r") := by
  refine ⟨by decide, by decide, by decide⟩

/-- C6 (amended): the round trip holds under the preconditions the code
actually needs.  For every compiled template (alternating glues and
pieces, one more glue than pieces) whose operators are all non-lossy
(`""`, `.`, `/`, `;`, `?`, `&`), whose variables carry no maxLength
modifier and have names in `[A-Za-z_][A-Za-z0-9_]*`, pairwise distinct
across the template, and every variable mapping whose values are absent
or non-empty strings of code points in `[0x10, 0x7F)` avoiding the
operator's separator character (no `.` under the `.` operator), where in
each expression the defined variables form a prefix of the variable
list, every glue except possibly the last is non-empty, and no following
glue's text occurs inside a rendered expression output: expansion
succeeds and produces the glues interleaved with the per-piece spec
renderings, and extraction of that expansion returns exactly the defined
variables with their original values, in template order. -/
theorem c6_amended_round_trip
    (glues : List JStr) (pieces : List Piece) (V : List (JStr × JSValue))
    (hlen : glues.length = pieces.length + 1)
    (hops : ∀ pc ∈ pieces, pc.operator ∈ nonLossyOps)
    (hvars : ∀ pc ∈ pieces, ∀ vr ∈ pc.vars,
      vr.maxLength = none ∧ validName vr.name = true)
    (hvals : ∀ pc ∈ pieces, ∀ vr ∈ pc.vars,
      valOKb pc.operator (jsLookup V vr.name) = true)
    (hnodup : (namesOf pieces).Nodup)
    (hpre : definedPrefixB V pieces = true)
    (hint : interiorNonempty glues.tail = true)
    (hglue : glueSafeB V pieces glues.tail = true) :
    stringify glues pieces V =
        .ok (glues.headD [] ++ catPieces (pieces.map (renderPieceSpec V)) glues.tail) ∧
      parse glues pieces
          (glues.headD [] ++ catPieces (pieces.map (renderPieceSpec V)) glues.tail) =
        .ok (some (expectedData V pieces)) := by
  constructor
  · exact stringify_spec glues pieces V hlen
      (fun pc hpc => ⟨hops pc hpc, fun vr hvr =>
        ⟨(hvars pc hpc vr hvr).1, (hvars pc hpc vr hvr).2, hvals pc hpc vr hvr⟩⟩)
  · cases glues with
    | nil => simp at hlen
    | cons g0 gs =>
      rw [List.tail_cons] at hint hglue
      rw [List.headD_cons, List.tail_cons]
      unfold parse
      have hlens : (pieces.map (renderPieceSpec V)).length = gs.length := by
        rw [List.length_map]
        simp only [List.length_cons] at hlen
        omega
      have hsafe : gluesSafe (pieces.map (renderPieceSpec V)) gs = true := by
        rw [← glueSafeB_eq_gluesSafe]
        exact hglue
      have hoffs := getSegmentsOffsets_round g0 (pieces.map (renderPieceSpec V)) gs
        hlens hint hsafe
      rw [hoffs]
      show parsePiecesA (g0 ++ catPieces (pieces.map (renderPieceSpec V)) gs) pieces
          (g0 :: gs) (0 :: specOffs g0.length (pieces.map (renderPieceSpec V)) gs) [] =
        .ok (some (expectedData V pieces))
      have htake : ∀ pc ∈ pieces, pc.vars.filter (defdB V) =
          pc.vars.takeWhile (defdB V) := by
        intro pc hpc
        exact filter_eq_takeWhile_of_suffix_undef pc.vars
          (List.all_eq_true.mp hpre pc hpc)
      have hmain := parsePiecesA_round V pieces gs g0 g0 0 []
        (by simp only [List.length_cons] at hlen; omega)
        (by omega) hops hvars hvals htake
        (by rw [List.map_nil, List.nil_append]; exact hnodup)
      rw [hmain, List.nil_append]

/-- Witness for C6 amended on the template `"/users/{id}"` with
`{id: "42"}`: the expansion is `"/users/42"` and extraction recovers
`{id: "42"}`. -/
theorem c6_amended_round_trip_witness :
    stringify [jstr ("/users/"), []] [⟨.plain, [⟨jstr ("id"), none, false⟩]⟩]
        [(jstr ("id"), .str (jstr ("42")))] =
      .ok (([jstr ("/users/"), []].headD []) ++
        catPieces ([⟨.plain, [⟨jstr ("id"), none, false⟩]⟩].map
          (renderPieceSpec [(jstr ("id"), .str (jstr ("42")))]))
          ([jstr ("/users/"), []].tail)) ∧
    parse [jstr ("/users/"), []] [⟨.plain, [⟨jstr ("id"), none, false⟩]⟩]
        (([jstr ("/users/"), []].headD []) ++
          catPieces ([⟨.plain, [⟨jstr ("id"), none, false⟩]⟩].map
            (renderPieceSpec [(jstr ("id"), .str (jstr ("42")))]))
            ([jstr ("/users/"), []].tail)) =
      .ok (some (expectedData [(jstr ("id"), .str (jstr ("42")))]
        [⟨.plain, [⟨jstr ("id"), none, false⟩]⟩])) :=
  c6_amended_round_trip [jstr ("/users/"), []]
    [⟨.plain, [⟨jstr ("id"), none, false⟩]⟩]
    [(jstr ("id"), .str (jstr ("42")))]
    (by decide) (by decide) (by decide) (by decide) (by decide) (by decide)
    (by decide) (by decide)
